import Mathlib

/-!
Verification of the tinywebserver HTTP server core against its
natural-language specification.

Shallow embedding of the relevant C++ sources:
 * HTTP request / header data model      (src/unnamed/part_019, src/src/network/http/header.hpp)
 * header-line parsing                   (src/src/network/http/parser.cpp, Parser::parse_header)
 * the incremental request parser loop   (src/unnamed/part_011, RequestParser::consume_from_fd)
 * keep-alive detection                  (src/unnamed/part_011, Request::is_keepalive;
                                          src/include/tinywebserver/network/http/connection.h)
 * handler registry                      (src/src/network/http/handler.cpp)
 * segmented buffer BufferVector         (src/include/tinywebserver/utils/buffer_vector.h)
 * flat Buffer                           (src/include/tinywebserver/utils/buffer.h)
 * timer scheduler                       (src/src/timer/timer.cpp, src/src/timer/timer.hpp)
 * Server::listen                        (src/src/network/http/server.cpp)
-/

namespace Tws

/-! ## HTTP data model -/

/-- Request::Method (src/unnamed/part_019). -/
inductive Method where
  | UNKNOWN | GET | POST | HEAD | PUT | DELETE | TRACE | CONNECT
deriving DecidableEq, Repr

/-- http::Header is a std::unordered_map<std::string, std::string>
(src/src/network/http/header.hpp).  Keys are unique; hash order is
irrelevant to lookups, so the map is embedded as an association list
with unique keys. -/
abbrev Header := List (String × String)

/-- unordered_map::find. -/
def Header.find? (h : Header) (n : String) : Option String := List.lookup n h

/-- unordered_map::emplace: inserts only when the key is absent
(first occurrence wins). -/
def Header.emplace (h : Header) (n v : String) : Header :=
  if (Header.find? h n).isSome then h else h ++ [(n, v)]

/-- http::Request (src/unnamed/part_019): method, uri, version, header map,
body byte vector. -/
structure Request where
  method : Method := .UNKNOWN
  uri : String := ""
  version : String := ""
  header : Header := []
  body : List Char := []
deriving DecidableEq, Repr

/-- toupper on a string: per-character std::toupper over unsigned char
(src/include/tinywebserver/utils/string.h, the std::transform line). -/
def strToUpper (s : String) : String := (s.toList.map Char.toUpper).asString

/-- Request::str2Method (src/unnamed/part_011 lines 8-20): uppercase the
input, then look it up in the method table; anything else is UNKNOWN. -/
def str2Method (s : String) : Method :=
  let u := strToUpper s
  if u = "GET" then .GET
  else if u = "POST" then .POST
  else if u = "HEAD" then .HEAD
  else if u = "PUT" then .PUT
  else if u = "DELETE" then .DELETE
  else if u = "TRACE" then .TRACE
  else if u = "CONNECT" then .CONNECT
  else .UNKNOWN

/-- Request::is_keepalive (src/unnamed/part_011 lines 38-44), transcribed
verbatim: the header looked up is the misspelled string "Connnection"
(three n), exactly as in the source. -/
def Request.is_keepalive (r : Request) : Bool :=
  match Header.find? r.header "Connnection" with
  | none => false
  | some v => v = "keep-alive" && r.version = "1.1"

/-- Connection::parse_request_from_fd keep-alive capture
(src/include/tinywebserver/network/http/connection.h lines 31-39):
when the parser yields a request, keep_alive_ := request.is_keepalive();
otherwise the flag is left unchanged. -/
def connUpdateKeepAlive (ka : Bool) (yielded : Option Request) : Bool :=
  match yielded with
  | some r => r.is_keepalive
  | none => ka

/-! ## Header-line parsing (Parser::parse_header) -/

/-- Field split of one header line under the regex "([^:]*): ?(.*)"
anchored at both ends (src/src/network/http/parser.cpp lines 57-67):
group 1 is everything before the first colon (it cannot contain a colon),
then the literal colon, then an optional single space, then the value.
The regex fails to match exactly when the line has no colon. -/
def headerLineFields (line : List Char) : Option (String × String) :=
  if ':' ∈ line then
    let name := line.takeWhile (· ≠ ':')
    let rest := (line.dropWhile (· ≠ ':')).drop 1
    let value := match rest with
      | ' ' :: r => r
      | r => r
    some (name.asString, value.asString)
  else none

/-- Parser::parse_header (src/src/network/http/parser.cpp lines 57-67):
on a regex match, obj.emplace(name, value); on failure return false
(embedded as none). -/
def parse_header (line : List Char) (h : Header) : Option Header :=
  match headerLineFields line with
  | none => none
  | some (n, v) => some (h.emplace n v)

/-- Folding parse_header over a sequence of header lines, as the
PARSING_REQUEST_HEADER state does once per line. -/
def parse_header_lines : List (List Char) → Header → Option Header
  | [], h => some h
  | l :: ls, h =>
    match parse_header l h with
    | none => none
    | some h2 => parse_header_lines ls h2

/-! ## Request-line parsing -/

/-- Position of the first "\r\n" in the buffer
(std::string_view::find(CRLF)). -/
def findCRLF : List Char → Option Nat
  | '\r' :: '\n' :: _ => some 0
  | _ :: rest => (findCRLF rest).map (· + 1)
  | [] => none

/-- RequestParser::parse_request_line (src/unnamed/part_011 lines 56-69).
The anchored regex "([^ ]*) ([^ ]*) HTTP/([^ ]*)" matches exactly when the
line splits on spaces into three space-free groups, the third starting with
"HTTP/".  On match the request's method, uri and version are populated; a
method mapping to UNKNOWN makes the function fail.  Failure is embedded as
none (on failure the caller discards the request object). -/
def parse_request_line (line : List Char) (r : Request) : Option Request :=
  match line.splitOn ' ' with
  | [g1, g2, g3] =>
    if g3.take 5 = "HTTP/".toList then
      let r2 := { r with
        method := str2Method g1.asString,
        uri := g2.asString,
        version := (g3.drop 5).asString }
      if r2.method = .UNKNOWN then none else some r2
    else none
  | _ => none

/-! ## The parser state machine (RequestParser::consume_from_fd) -/

/-- RequestParser::State (src/include/tinywebserver/network/http/request_parser.h),
spelling kept from the source. -/
inductive PState where
  | ERROR_READ_FD | ERROR_REQUEST_LINE | ERROR_HEADER | ERROR_NO_EMPTY_LINE
  | ERROR_BODY_LENGTH | INIT | PARSING_REQUEST_LINE | PARSING_REQUEST_HEADER
  | PARSING_EMPTY_LINE | BEFORE_PARSING_REQUST_BODY | PARSING_REQUEST_BODY
  | COMPLETE
deriving DecidableEq, Repr

/-- The mutable fields of RequestParser that the parse loop touches:
state_, obj_, req_body_size_, and the readable contents of the flat
buffer buf_ (the loop only uses buf_.view(), buf_.update_read_ptr,
buf_.readable_size and buf_.cur_read_ptr, all of which act on the
readable region, so buf_ is embedded as that byte list). -/
structure ParserCfg where
  state : PState := .INIT
  obj : Option Request := none
  req_body_size : Nat := 0
  buf : List Char := []
deriving DecidableEq, Repr

/-- std::stoul on the 64-bit Linux target, restricted to the inputs the
claims mention: optional leading spaces, an optional plus sign, then a
non-empty digit prefix (std::stoul parses the longest numeric prefix and
throws std::invalid_argument when there is none), whose value must fit
in unsigned long — when it exceeds ULONG_MAX = 2^64 - 1 std::stoul
throws std::out_of_range instead of returning.  Either throw is none;
out-of-claim behaviours of stoul (negative wrap-around) are not
modelled. -/
def stoulDigits? (v : String) : Option Nat :=
  let t := v.toList.dropWhile (· = ' ')
  let t2 := match t with
    | '+' :: r => r
    | r => r
  let digits := t2.takeWhile Char.isDigit
  if digits = [] then none
  else
    let n := digits.foldl (fun a c => a * 10 + (c.toNat - 48)) 0
    if n < 2 ^ 64 then some n else none

/-- Outcome of one iteration of the parse loop in consume_from_fd:
either fall out of the switch and continue the loop, or hit a return
statement, or propagate a C++ exception / null dereference. -/
inductive StepRes where
  | cont (s : ParserCfg)
  | ret (s : ParserCfg) (st : PState) (r : Option Request)
  | thrown
deriving DecidableEq, Repr

/-- One iteration of the for-loop in RequestParser::consume_from_fd
(src/unnamed/part_011 lines 92-182), one match arm per switch case.
Notes kept from the source:
 * INIT allocates or clears obj_, so obj becomes a default Request;
 * a line is the bytes before the first CRLF, and update_read_ptr
   consumes line.size()+2 bytes;
 * BEFORE_PARSING_REQUST_BODY (misspelling from the source) requires a
   Content-Length header, else returns ERROR_BODY_LENGTH;
 * PARSING_REQUEST_BODY copies min(req_body_size_-body.size(),
   readable_size()) bytes; an incomplete body merely breaks out of the
   switch (the loop spins); a complete body with leftover readable bytes
   returns ERROR_BODY_LENGTH; the impossible body>size case falls through
   into the COMPLETE case;
 * COMPLETE resets state_ to INIT and moves obj_ out. -/
def pstep (s : ParserCfg) : StepRes :=
  match s.state with
  | .INIT =>
    .cont { s with obj := some {}, state := .PARSING_REQUEST_LINE }
  | .PARSING_REQUEST_LINE =>
    match findCRLF s.buf with
    | none => .ret s s.state none
    | some pos =>
      let line := s.buf.take pos
      let s2 := { s with buf := s.buf.drop (pos + 2) }
      match s.obj with
      | none => .thrown
      | some r =>
        match parse_request_line line r with
        | none => .ret { s2 with state := .ERROR_REQUEST_LINE } .ERROR_REQUEST_LINE none
        | some r2 => .cont { s2 with obj := some r2, state := .PARSING_REQUEST_HEADER }
  | .PARSING_REQUEST_HEADER =>
    match findCRLF s.buf with
    | none => .ret s s.state none
    | some pos =>
      let line := s.buf.take pos
      let s2 := { s with buf := s.buf.drop (pos + 2) }
      if line = [] then
        .cont { s2 with state := .BEFORE_PARSING_REQUST_BODY }
      else
        match s.obj with
        | none => .thrown
        | some r =>
          match parse_header line r.header with
          | none => .ret { s2 with state := .ERROR_HEADER } .ERROR_HEADER none
          | some h2 => .cont { s2 with obj := some { r with header := h2 } }
  | .BEFORE_PARSING_REQUST_BODY =>
    match s.obj with
    | none => .thrown
    | some r =>
      match Header.find? r.header "Content-Length" with
      | none => .ret { s with state := .ERROR_BODY_LENGTH } .ERROR_BODY_LENGTH none
      | some v =>
        match stoulDigits? v with
        | none => .thrown
        | some len => .cont { s with req_body_size := len, state := .PARSING_REQUEST_BODY }
  | .PARSING_REQUEST_BODY =>
    match s.obj with
    | none => .thrown
    | some r =>
      let readn := min (s.req_body_size - r.body.length) s.buf.length
      let body2 := r.body ++ s.buf.take readn
      let s2 := { s with obj := some { r with body := body2 }, buf := s.buf.drop readn }
      if body2.length < s.req_body_size then .cont s2
      else if body2.length = s.req_body_size then
        if s2.buf.length ≠ 0 then
          .ret { s2 with state := .ERROR_BODY_LENGTH } .ERROR_BODY_LENGTH none
        else .cont { s2 with state := .COMPLETE }
      else
        .ret { s2 with state := .INIT, obj := none } .COMPLETE s2.obj
  | .COMPLETE => .ret { s with state := .INIT, obj := none } .COMPLETE s.obj
  | _ => .ret s s.state none

/-- Result of running the parse loop with a fuel bound: done is a return
statement, more means the fuel ran out with the loop still going. -/
inductive ConsumeRes where
  | done (s : ParserCfg) (st : PState) (r : Option Request)
  | more (s : ParserCfg)
  | thrown
deriving DecidableEq, Repr

/-- The parse loop of consume_from_fd (the `for (bool stop = false; !stop;)`
loop), iterated up to the given fuel. -/
def consumeLoop : Nat → ParserCfg → ConsumeRes
  | 0, s => .more s
  | n + 1, s =>
    match pstep s with
    | .cont s2 => consumeLoop n s2
    | .ret s2 st r => .done s2 st r
    | .thrown => .thrown

/-! ## Helper lemmas about header maps -/

lemma lookup_append (n : String) (l1 l2 : Header) :
    List.lookup n (l1 ++ l2) =
      ((List.lookup n l1).orElse fun _ => List.lookup n l2) := by
  induction l1 with
  | nil => simp [List.lookup, Option.orElse]
  | cons p t ih =>
    obtain ⟨a, b⟩ := p
    cases hba : (n == a) <;> simp [List.lookup, hba, ih, Option.orElse]

lemma lookup_none_notmem (n : String) (h : Header)
    (hl : List.lookup n h = none) : n ∉ h.map Prod.fst := by
  induction h with
  | nil => simp
  | cons p t ih =>
    obtain ⟨a, b⟩ := p
    cases hba : (n == a)
    · simp only [List.lookup, hba] at hl
      have hna : n ≠ a := by
        intro e
        rw [e] at hba
        simp at hba
      simp [hna, ih hl]
    · simp [List.lookup, hba] at hl

lemma emplace_keys_nodup (h : Header) (n v : String)
    (hn : (h.map Prod.fst).Nodup) : ((h.emplace n v).map Prod.fst).Nodup := by
  unfold Header.emplace
  cases hs : (Header.find? h n).isSome
  · rw [if_neg (by simp [hs])]
    have hnone : Header.find? h n = none := by
      cases he : Header.find? h n
      · rfl
      · rw [he] at hs
        simp at hs
    have hm := lookup_none_notmem n h hnone
    simp [List.nodup_append, hn, hm]
  · rw [if_pos (by simp [hs])]
    exact hn

lemma find?_emplace (h : Header) (n0 v0 n : String) :
    Header.find? (h.emplace n0 v0) n =
      ((Header.find? h n).orElse fun _ => if n = n0 then some v0 else none) := by
  unfold Header.emplace
  cases hs : (Header.find? h n0).isSome
  · rw [if_neg (by simp [hs])]
    show List.lookup n (h ++ [(n0, v0)]) = _
    rw [lookup_append]
    have hsing : List.lookup n [(n0, v0)] = if n = n0 then some v0 else none := by
      cases hba : (n == n0)
      · have hne : n ≠ n0 := by
          intro e
          rw [e] at hba
          simp at hba
        simp [List.lookup, hba, hne]
      · have heq : n = n0 := by simpa using hba
        simp [List.lookup, hba, heq]
    simp only [hsing]
    rfl
  · rw [if_pos (by simp [hs])]
    cases he : Header.find? h n
    · have hn : n ≠ n0 := by
        intro e
        rw [e] at he
        rw [he] at hs
        simp at hs
      simp [Option.orElse, hn]
    · simp [Option.orElse]

/-- The value of the first header line in ls whose parsed name is n. -/
def firstHeaderVal (ls : List (List Char)) (n : String) : Option String :=
  (((ls.filterMap headerLineFields).find? (fun p => p.1 = n)).map Prod.snd)

lemma parse_header_lines_spec (ls : List (List Char)) :
    ∀ h hres, parse_header_lines ls h = some hres →
      (∀ n, Header.find? hres n =
        ((Header.find? h n).orElse fun _ => firstHeaderVal ls n))
      ∧ ((h.map Prod.fst).Nodup → (hres.map Prod.fst).Nodup) := by
  induction ls with
  | nil =>
    intro h hres he
    simp only [parse_header_lines, Option.some.injEq] at he
    rw [← he]
    refine ⟨fun n => ?_, fun hn => hn⟩
    cases hf : Header.find? h n <;> simp [hf, firstHeaderVal, Option.orElse]
  | cons l ls ih =>
    intro h hres he
    simp only [parse_header_lines, parse_header] at he
    cases hf : headerLineFields l with
    | none => rw [hf] at he; simp at he
    | some p =>
      obtain ⟨n0, v0⟩ := p
      rw [hf] at he
      simp only at he
      obtain ⟨ih1, ih2⟩ := ih (h.emplace n0 v0) hres he
      constructor
      · intro n
        rw [ih1 n, find?_emplace]
        have hcons : firstHeaderVal (l :: ls) n =
            ((if n = n0 then some v0 else none).orElse fun _ => firstHeaderVal ls n) := by
          by_cases hn : n = n0
          · subst hn
            simp [firstHeaderVal, hf, List.find?, Option.orElse]
          · have hn2 : ¬n0 = n := fun e => hn e.symm
            simp [firstHeaderVal, hf, List.find?, hn, hn2, Option.orElse]
        rw [hcons]
        cases Header.find? h n <;> simp [Option.orElse]
      · intro hn
        exact ih2 (emplace_keys_nodup h n0 v0 hn)

/-! ## Claim C5 -/

/-- C5: parsing a sequence of well-formed header lines into a request's
header map (starting empty, as after INIT) retains the value of the first
occurrence of each header name and silently discards all subsequent
occurrences, and the resulting map has unique names. -/
theorem C5_duplicate_headers_first_wins (ls : List (List Char)) (hres : Header)
    (hp : parse_header_lines ls [] = some hres) :
    (hres.map Prod.fst).Nodup ∧
    ∀ n, Header.find? hres n = firstHeaderVal ls n := by
  obtain ⟨h1, h2⟩ := parse_header_lines_spec ls [] hres hp
  refine ⟨h2 (by simp), fun n => ?_⟩
  have := h1 n
  simpa [Header.find?, List.lookup, Option.orElse] using this

/-- Witness for C5 at a concrete duplicated header sequence:
"A: 1" then "A: 2" parses to a single entry ("A", "1"). -/
theorem C5_duplicate_headers_first_wins_witness :
    (([("A", "1")] : Header).map Prod.fst).Nodup ∧
    Header.find? [("A", "1")] "A" = firstHeaderVal ["A: 1".toList, "A: 2".toList] "A" :=
  ⟨(C5_duplicate_headers_first_wins ["A: 1".toList, "A: 2".toList] [("A", "1")] (by decide)).1,
   (C5_duplicate_headers_first_wins ["A: 1".toList, "A: 2".toList] [("A", "1")] (by decide)).2 "A"⟩

/-! ## Claim C3 -/

/-- A completed request carrying the well-spelled "Connection: keep-alive"
header with version 1.1. -/
def c3Request : Request :=
  { method := .GET, uri := "/", version := "1.1",
    header := [("Connection", "keep-alive")], body := [] }

/-- C3: the claim says the connection keep_alive flag becomes true exactly
for requests whose "Connection" header equals "keep-alive" with version
"1.1".  The code instead looks up the misspelled name "Connnection"
(src/unnamed/part_011 line 39), so the request above yields false, and a
request carrying the misspelled header name yields true. -/
theorem C3_keepalive_misspelled_lookup :
    Header.find? c3Request.header "Connection" = some "keep-alive" ∧
    c3Request.version = "1.1" ∧
    c3Request.is_keepalive = false ∧
    connUpdateKeepAlive true (some c3Request) = false ∧
    ({ c3Request with header := [("Connnection", "keep-alive")] } : Request).is_keepalive = true := by
  refine ⟨by decide, by decide, by decide, by decide, by decide⟩

/-! ## Claim C4 -/

/-- A parser configuration at the body-size dispatch whose Content-Length
value is the 20-digit decimal 20000000000000000000, a non-negative
integer exceeding ULONG_MAX = 18446744073709551615. -/
def c4Huge : ParserCfg :=
  { state := .BEFORE_PARSING_REQUST_BODY,
    obj := some { header := [("Content-Length", "20000000000000000000")] },
    req_body_size := 0, buf := [] }

/-- C4 counterexample: with a Content-Length header holding a non-negative
integer above ULONG_MAX, the parser does not store the length and
transition to PARSING_REQUEST_BODY: std::stoul (src/unnamed/part_011
line 149) throws std::out_of_range, which consume_from_fd does not
catch, so the loop iteration — and the whole run — propagates the
exception instead. -/
theorem C4_counterexample :
    (18446744073709551615 : Nat) < 20000000000000000000 ∧
    stoulDigits? "20000000000000000000" = none ∧
    pstep c4Huge = .thrown ∧
    (∀ s2 : ParserCfg, pstep c4Huge ≠ .cont s2) ∧
    consumeLoop 5 c4Huge = .thrown := by
  refine ⟨by decide, by decide, by decide, ?_, by decide⟩
  intro s2 h
  rw [show pstep c4Huge = .thrown from by decide] at h
  exact StepRes.noConfusion h

/-- C4 (amended): at state BEFORE_PARSING_REQUST_BODY with the parsed
request present, a missing Content-Length header makes consume_from_fd
return ERROR_BODY_LENGTH with no request; a numeric Content-Length whose
value fits in unsigned long (zero included) is stored in req_body_size_
with a transition to PARSING_REQUEST_BODY; a Content-Length on which
std::stoul throws — a non-numeric value, or a numeric value above
ULONG_MAX = 2^64 - 1 — makes the run propagate the uncaught exception,
storing no length and never reaching PARSING_REQUEST_BODY. -/
theorem C4_content_length_dispatch (s : ParserCfg) (r : Request)
    (hs : s.state = .BEFORE_PARSING_REQUST_BODY) (ho : s.obj = some r) :
    (Header.find? r.header "Content-Length" = none →
      ∀ f, consumeLoop (f + 1) s =
        .done { s with state := .ERROR_BODY_LENGTH } .ERROR_BODY_LENGTH none) ∧
    (∀ v n, Header.find? r.header "Content-Length" = some v → stoulDigits? v = some n →
      pstep s = .cont { s with req_body_size := n, state := .PARSING_REQUEST_BODY }) ∧
    (∀ v, Header.find? r.header "Content-Length" = some v → stoulDigits? v = none →
      ∀ f, consumeLoop (f + 1) s = .thrown) := by
  refine ⟨?_, ?_, ?_⟩
  · intro hcl f
    simp [consumeLoop, pstep, hs, ho, hcl]
  · intro v n hcl hst
    simp [pstep, hs, ho, hcl, hst]
  · intro v hcl hst f
    simp [consumeLoop, pstep, hs, ho, hcl, hst]

/-- Witness for C4: one configuration with no Content-Length header, one
with Content-Length zero, and one with a Content-Length above ULONG_MAX. -/
theorem C4_content_length_dispatch_witness :
    (consumeLoop 1
        { state := .BEFORE_PARSING_REQUST_BODY,
          obj := some { header := [("Host", "x")] }, req_body_size := 0, buf := [] } =
      .done { state := .ERROR_BODY_LENGTH,
              obj := some { header := [("Host", "x")] }, req_body_size := 0, buf := [] }
        .ERROR_BODY_LENGTH none) ∧
    (pstep
        { state := .BEFORE_PARSING_REQUST_BODY,
          obj := some { header := [("Content-Length", "0")] }, req_body_size := 7, buf := [] } =
      .cont { state := .PARSING_REQUEST_BODY,
              obj := some { header := [("Content-Length", "0")] }, req_body_size := 0, buf := [] }) ∧
    consumeLoop 1 c4Huge = .thrown :=
  ⟨(C4_content_length_dispatch _ _ rfl rfl).1 (by decide) 0,
   (C4_content_length_dispatch _ _ rfl rfl).2.1 "0" 0 (by decide) (by decide),
   (C4_content_length_dispatch c4Huge
      { header := [("Content-Length", "20000000000000000000")] } rfl rfl).2.2
     "20000000000000000000" (by decide) (by decide) 0⟩

/-! ## Claim C1 -/

/-- A full concrete request followed by one extra pipelined byte. -/
def c1Input : ParserCfg :=
  { state := .INIT, obj := none, req_body_size := 0,
    buf := "GET / HTTP/1.1\r\nContent-Length: 0\r\n\r\nX".toList }

/-- C1 counterexample: running the parse loop on a request whose body
reaches exactly Content-Length while one unread byte remains does NOT
transition to COMPLETE and yield the request; it returns
ERROR_BODY_LENGTH with no request (src/unnamed/part_011 lines 166-170). -/
theorem C1_counterexample :
    consumeLoop 10 c1Input =
      .done { state := .ERROR_BODY_LENGTH,
              obj := some { method := .GET, uri := "/", version := "1.1",
                            header := [("Content-Length", "0")], body := [] },
              req_body_size := 0, buf := ['X'] }
        .ERROR_BODY_LENGTH none ∧
    PState.ERROR_BODY_LENGTH ≠ PState.COMPLETE := by
  refine ⟨by decide, by decide⟩

/-- C1 amended: for every parser run in state PARSING_REQUEST_BODY in
which the request body reaches exactly Content-Length bytes while unread
bytes remain in the input buffer, consume_from_fd terminates in
ERROR_BODY_LENGTH and yields no request; the leftover bytes stay in the
buffer and the parser does not reset. -/
theorem C1_leftover_bytes_error (s : ParserCfg) (r : Request)
    (hs : s.state = .PARSING_REQUEST_BODY) (ho : s.obj = some r)
    (hle : r.body.length ≤ s.req_body_size)
    (hmore : s.req_body_size - r.body.length < s.buf.length) :
    ∀ f, consumeLoop (f + 1) s =
      .done { state := .ERROR_BODY_LENGTH,
              obj := some { r with
                body := r.body ++ s.buf.take (s.req_body_size - r.body.length) },
              req_body_size := s.req_body_size,
              buf := s.buf.drop (s.req_body_size - r.body.length) }
        .ERROR_BODY_LENGTH none ∧
      s.buf.drop (s.req_body_size - r.body.length) ≠ [] := by
  intro f
  have hrn : min (s.req_body_size - r.body.length) s.buf.length =
      s.req_body_size - r.body.length := by omega
  have hlen : (r.body ++ s.buf.take (s.req_body_size - r.body.length)).length =
      s.req_body_size := by
    rw [List.length_append, List.length_take]
    omega
  have hdrop : (s.buf.drop (s.req_body_size - r.body.length)).length ≠ 0 := by
    rw [List.length_drop]
    omega
  constructor
  · unfold consumeLoop pstep
    simp only [hs, ho, hrn, hlen]
    simp [hdrop]
    rw [if_neg (by omega)]
  · intro hnil
    rw [hnil] at hdrop
    simp at hdrop

/-- Witness for the amended C1: body needs one more byte, two are
buffered. -/
theorem C1_leftover_bytes_error_witness :
    consumeLoop 5
      { state := .PARSING_REQUEST_BODY, obj := some { body := [] },
        req_body_size := 1, buf := ['a', 'b'] } =
      .done { state := .ERROR_BODY_LENGTH, obj := some { body := ['a'] },
              req_body_size := 1, buf := ['b'] }
        .ERROR_BODY_LENGTH none ∧
    (['b'] : List Char) ≠ [] := by
  have := C1_leftover_bytes_error
    { state := .PARSING_REQUEST_BODY, obj := some { body := [] },
      req_body_size := 1, buf := ['a', 'b'] }
    { body := [] } rfl rfl (by decide) (by decide) 4
  exact ⟨this.1, this.2⟩

/-! ## Handler registry (HandlerManager, src/src/network/http/handler.cpp) -/

/-- std::string::starts_with on complete strings: byte-prefix of valid
UTF-8 strings coincides with character-list prefix. -/
def strStartsWith (s p : String) : Bool :=
  decide (s.toList.take p.toList.length = p.toList)

/-- pattern.ends_with of a single char (handler.cpp line 12). -/
def strEndsWithChar (s : String) (c : Char) : Bool :=
  match s.toList.getLast? with
  | some d => d = c
  | none => false

/-- HandlerManager state (src/include/tinywebserver/network/http/handler.h):
pattern2handler_ is an unordered_map from pattern to handler (embedded as an
association list with unique keys; hash order is irrelevant to lookups), and
handlers_ is the vector of trailing-slash patterns kept sorted by
descending pattern length.  The handler values (std::function objects) are
abstracted by the type parameter H; the possibly-null HTTPHandler argument
of handle is an Option H.  std::string::size counts bytes while toList
counts characters; on the nested chains of prefixes that matching compares,
the two orders agree. -/
structure HandlerManager (H : Type) where
  pattern2handler : List (String × H) := []
  handlers : List (String × H) := []

/-- The std::lower_bound insertion of HandlerManager::handle (handler.cpp
lines 13-17): insert before the first element whose pattern length is not
greater than the new pattern's length. -/
def insertByLen {H : Type} (l : List (String × H)) (pat : String) (hv : H) :
    List (String × H) :=
  match l with
  | [] => [(pat, hv)]
  | (q, g) :: rest =>
    if q.toList.length > pat.toList.length then (q, g) :: insertByLen rest pat hv
    else (pat, hv) :: (q, g) :: rest

/-- HandlerManager::handle (handler.cpp lines 6-20): reject empty patterns,
null handlers and duplicates; otherwise insert into the exact map, and for
trailing-slash patterns also into the descending-length vector. -/
def HandlerManager.handle {H : Type} (m : HandlerManager H) (pat : String)
    (handler : Option H) : Bool × HandlerManager H :=
  match handler with
  | none => (false, m)
  | some hv =>
    if pat = "" ∨ (m.pattern2handler.lookup pat).isSome then (false, m)
    else
      let m2 := { m with pattern2handler := m.pattern2handler ++ [(pat, hv)] }
      if strEndsWithChar pat '/' then
        (true, { m2 with handlers := insertByLen m2.handlers pat hv })
      else (true, m2)

/-- HandlerManager::match (handler.cpp lines 22-28; match is a Lean keyword,
hence the name): probe the exact map, then return the handler of the first
trailing-slash pattern in handlers_ that prefixes the uri, else null. -/
def HandlerManager.matchHandler {H : Type} (m : HandlerManager H) (uri : String) :
    Option H :=
  match m.pattern2handler.lookup uri with
  | some hv => some hv
  | none =>
    match m.handlers.find? (fun p => strStartsWith uri p.1) with
    | some p => some p.2
    | none => none

/-- A sequence of handle registrations applied to a manager. -/
def registerAll {H : Type} : List (String × Option H) → HandlerManager H → HandlerManager H
  | [], m => m
  | r :: rs, m => registerAll rs (HandlerManager.handle m r.1 r.2).2

/-- The handler of the first registration for pattern u that the manager
accepts when starting from the empty state: the first entry for u that is
non-empty and non-null (later duplicates are rejected). -/
def firstReg {H : Type} (regs : List (String × Option H)) (u : String) : Option H :=
  match regs.find? (fun r => r.1 == u && !(r.1 == "") && r.2.isSome) with
  | some r => r.2
  | none => none

/-! ## Handler registry lemmas -/

lemma glookup_append {H : Type} (n : String) (l1 l2 : List (String × H)) :
    List.lookup n (l1 ++ l2) = ((List.lookup n l1).orElse fun _ => List.lookup n l2) := by
  induction l1 with
  | nil => simp [List.lookup, Option.orElse]
  | cons p t ih =>
    obtain ⟨a, b⟩ := p
    cases hba : (n == a) <;> simp [List.lookup, hba, ih, Option.orElse]

lemma glookup_none_notmem {H : Type} (n : String) (l : List (String × H))
    (hl : List.lookup n l = none) : n ∉ l.map Prod.fst := by
  induction l with
  | nil => simp
  | cons p t ih =>
    obtain ⟨a, b⟩ := p
    cases hba : (n == a)
    · simp only [List.lookup, hba] at hl
      have hna : n ≠ a := by
        intro e
        rw [e] at hba
        simp at hba
      simp [hna, ih hl]
    · simp [List.lookup, hba] at hl

lemma glookup_singleton {H : Type} (n n0 : String) (v0 : H) :
    List.lookup n [(n0, v0)] = if n = n0 then some v0 else none := by
  cases hba : (n == n0)
  · have hne : n ≠ n0 := by
      intro e
      rw [e] at hba
      simp at hba
    simp [List.lookup, hba, hne]
  · have heq : n = n0 := by simpa using hba
    simp [List.lookup, hba, heq]

lemma glookup_mem {H : Type} {n : String} {hv : H} :
    ∀ {l : List (String × H)}, List.lookup n l = some hv → (n, hv) ∈ l := by
  intro l
  induction l with
  | nil => intro h; simp [List.lookup] at h
  | cons p t ih =>
    obtain ⟨a, b⟩ := p
    intro h
    cases hba : (n == a)
    · simp only [List.lookup, hba] at h
      exact List.mem_cons_of_mem _ (ih h)
    · simp only [List.lookup, hba, Option.some.injEq] at h
      have heq : n = a := by simpa using hba
      rw [heq, h]
      exact List.mem_cons_self _ _

lemma insertByLen_perm {H : Type} (pat : String) (hv : H) :
    ∀ l : List (String × H), (insertByLen l pat hv).Perm ((pat, hv) :: l) := by
  intro l
  induction l with
  | nil => simp [insertByLen]
  | cons a rest ih =>
    obtain ⟨q, g⟩ := a
    unfold insertByLen
    split
    · exact (ih.cons (q, g)).trans (List.Perm.swap _ _ _)
    · exact List.Perm.refl _

lemma insertByLen_mem {H : Type} (pat : String) (hv : H) (l : List (String × H))
    (x : String × H) : x ∈ insertByLen l pat hv ↔ x = (pat, hv) ∨ x ∈ l := by
  rw [(insertByLen_perm pat hv l).mem_iff, List.mem_cons]

lemma insertByLen_sorted {H : Type} (pat : String) (hv : H) :
    ∀ l : List (String × H),
      l.Pairwise (fun a b => b.1.toList.length ≤ a.1.toList.length) →
      (insertByLen l pat hv).Pairwise
        (fun a b => b.1.toList.length ≤ a.1.toList.length) := by
  intro l
  induction l with
  | nil => intro _; simp [insertByLen]
  | cons a rest ih =>
    intro hs
    obtain ⟨q, g⟩ := a
    rw [List.pairwise_cons] at hs
    obtain ⟨hq, hrest⟩ := hs
    unfold insertByLen
    split
    · next hgt =>
      rw [List.pairwise_cons]
      refine ⟨fun x hx => ?_, ih hrest⟩
      rcases (insertByLen_mem pat hv rest x).mp hx with rfl | hx2
      · exact le_of_lt hgt
      · exact hq x hx2
    · next hle =>
      have hqp : q.toList.length ≤ pat.toList.length := by omega
      rw [List.pairwise_cons]
      refine ⟨fun x hx => ?_, List.pairwise_cons.mpr ⟨hq, hrest⟩⟩
      rcases List.mem_cons.mp hx with rfl | hx2
      · exact hqp
      · exact le_trans (hq x hx2) hqp

lemma strStartsWith_unique (u p q : String) (hp : strStartsWith u p = true)
    (hq : strStartsWith u q = true) (hl : p.toList.length = q.toList.length) :
    p = q := by
  unfold strStartsWith at hp hq
  have hp2 := of_decide_eq_true hp
  have hq2 := of_decide_eq_true hq
  rw [← String.asString_toList p, ← String.asString_toList q, ← hp2, ← hq2, hl]

lemma sorted_find_longest {H : Type} (u : String) :
    ∀ (l : List (String × H)) (p : String) (hv : H),
      l.Pairwise (fun a b => b.1.toList.length ≤ a.1.toList.length) →
      (l.map Prod.fst).Nodup →
      (p, hv) ∈ l → strStartsWith u p = true →
      (∀ q g, (q, g) ∈ l → strStartsWith u q = true →
        q.toList.length ≤ p.toList.length) →
      l.find? (fun x => strStartsWith u x.1) = some (p, hv) := by
  intro l
  induction l with
  | nil => intro p hv _ _ hmem; simp at hmem
  | cons a rest ih =>
    intro p hv hs hn hmem hsw hmax
    obtain ⟨q, g⟩ := a
    rw [List.pairwise_cons] at hs
    obtain ⟨hqall, hrest⟩ := hs
    rw [List.map_cons, List.nodup_cons] at hn
    obtain ⟨hqnot, hnrest⟩ := hn
    by_cases hq : strStartsWith u q = true
    · rw [List.find?_cons_of_pos _ (by simpa using hq)]
      rcases List.mem_cons.mp hmem with he | hrestmem
      · rw [he]
      · exfalso
        have h1 : q.toList.length ≤ p.toList.length :=
          hmax q g (List.mem_cons_self _ _) hq
        have h2 : p.toList.length ≤ q.toList.length := hqall (p, hv) hrestmem
        have hpq : p = q := strStartsWith_unique u p q hsw hq (le_antisymm h2 h1)
        have hmm : p ∈ rest.map Prod.fst := List.mem_map_of_mem Prod.fst hrestmem
        rw [hpq] at hmm
        exact hqnot hmm
    · rw [List.find?_cons_of_neg _ (by simpa using hq)]
      rcases List.mem_cons.mp hmem with he | hrestmem
      · exfalso
        have : p = q := congrArg Prod.fst he
        rw [this] at hsw
        exact hq hsw
      · exact ih p hv hrest hnrest hrestmem hsw
          (fun q2 g2 hm hsw2 => hmax q2 g2 (List.mem_cons_of_mem _ hm) hsw2)

/-- Well-formedness of manager states reachable through handle: unique map
keys, unique trailing-slash patterns, the prefix vector sorted by
descending length, and the vector containing exactly the registered
trailing-slash patterns with their handlers. -/
def HMWF {H : Type} (m : HandlerManager H) : Prop :=
  (m.pattern2handler.map Prod.fst).Nodup ∧
  (m.handlers.map Prod.fst).Nodup ∧
  m.handlers.Pairwise (fun a b => b.1.toList.length ≤ a.1.toList.length) ∧
  (∀ p hv, (p, hv) ∈ m.handlers ↔
    (m.pattern2handler.lookup p = some hv ∧ strEndsWithChar p '/' = true))

lemma handle_wf {H : Type} (m : HandlerManager H) (pat : String) (hd : Option H)
    (hwf : HMWF m) : HMWF (m.handle pat hd).2 := by
  obtain ⟨hw1, hw2, hw3, hw4⟩ := hwf
  unfold HandlerManager.handle
  cases hd with
  | none => exact ⟨hw1, hw2, hw3, hw4⟩
  | some hv =>
    simp only
    split
    · exact ⟨hw1, hw2, hw3, hw4⟩
    · next hguard =>
      push_neg at hguard
      obtain ⟨hpe, hlk⟩ := hguard
      have hlknone : m.pattern2handler.lookup pat = none := by
        cases he : m.pattern2handler.lookup pat
        · rfl
        · rw [he] at hlk
          simp at hlk
      have hpatnot : pat ∉ m.pattern2handler.map Prod.fst :=
        glookup_none_notmem pat _ hlknone
      have hmap : ((m.pattern2handler ++ [(pat, hv)]).map Prod.fst).Nodup := by
        simp [List.nodup_append, hw1, hpatnot]
      have hlook2 : ∀ p : String, List.lookup p (m.pattern2handler ++ [(pat, hv)]) =
          ((m.pattern2handler.lookup p).orElse fun _ =>
            if p = pat then some hv else none) := by
        intro p
        rw [glookup_append, glookup_singleton]
      have hpatnot2 : pat ∉ m.handlers.map Prod.fst := by
        intro hmem
        obtain ⟨x, hx, hfx⟩ := List.mem_map.mp hmem
        obtain ⟨q, g⟩ := x
        simp only at hfx
        subst hfx
        have := (hw4 q g).mp hx
        rw [this.1] at hlknone
        simp at hlknone
      split
      · next hslash =>
        refine ⟨hmap, ?_, insertByLen_sorted pat hv _ hw3, ?_⟩
        · have hpm : ((insertByLen m.handlers pat hv).map Prod.fst).Perm
              (pat :: m.handlers.map Prod.fst) :=
            (insertByLen_perm pat hv m.handlers).map Prod.fst
          exact hpm.nodup_iff.mpr (List.nodup_cons.mpr ⟨hpatnot2, hw2⟩)
        · intro p hv2
          rw [insertByLen_mem]
          show _ ↔ (List.lookup p (m.pattern2handler ++ [(pat, hv)]) = some hv2 ∧ _)
          rw [hlook2 p]
          constructor
          · rintro (he | hmem)
            · rw [Prod.mk.injEq] at he
              obtain ⟨rfl, rfl⟩ := he
              rw [hlknone]
              simp [Option.orElse]
              exact hslash
            · have := (hw4 p hv2).mp hmem
              rw [this.1]
              exact ⟨rfl, this.2⟩
          · rintro ⟨hlook, hsl⟩
            by_cases hppat : p = pat
            · subst hppat
              rw [hlknone] at hlook
              simp [Option.orElse] at hlook
              left
              rw [hlook]
            · right
              rw [if_neg hppat] at hlook
              cases he : m.pattern2handler.lookup p with
              | none =>
                rw [he] at hlook
                simp [Option.orElse] at hlook
              | some hv3 =>
                rw [he] at hlook
                simp [Option.orElse] at hlook
                exact (hw4 p hv2).mpr ⟨hlook ▸ he, hsl⟩
      · next hslash =>
        refine ⟨hmap, hw2, hw3, ?_⟩
        intro p hv2
        show _ ↔ (List.lookup p (m.pattern2handler ++ [(pat, hv)]) = some hv2 ∧ _)
        rw [hlook2 p]
        constructor
        · intro hmem
          have := (hw4 p hv2).mp hmem
          rw [this.1]
          exact ⟨rfl, this.2⟩
        · rintro ⟨hlook, hsl⟩
          by_cases hppat : p = pat
          · subst hppat
            exact absurd hsl (by simpa using hslash)
          · rw [if_neg hppat] at hlook
            cases he : m.pattern2handler.lookup p with
            | none =>
              rw [he] at hlook
              simp [Option.orElse] at hlook
            | some hv3 =>
              rw [he] at hlook
              simp [Option.orElse] at hlook
              exact (hw4 p hv2).mpr ⟨hlook ▸ he, hsl⟩

lemma registerAll_wf {H : Type} (regs : List (String × Option H)) :
    ∀ m : HandlerManager H, HMWF m → HMWF (registerAll regs m) := by
  induction regs with
  | nil => intro m hm; exact hm
  | cons r rs ih => intro m hm; exact ih _ (handle_wf m r.1 r.2 hm)

lemma registerAll_lookup {H : Type} (regs : List (String × Option H)) :
    ∀ (m : HandlerManager H) (u : String),
      (registerAll regs m).pattern2handler.lookup u =
        ((m.pattern2handler.lookup u).orElse fun _ => firstReg regs u) := by
  induction regs with
  | nil =>
    intro m u
    cases he : m.pattern2handler.lookup u <;>
      simp [registerAll, firstReg, he, Option.orElse, List.find?]
  | cons r rs ih =>
    intro m u
    obtain ⟨p, d⟩ := r
    show (registerAll rs (HandlerManager.handle m p d).2).pattern2handler.lookup u = _
    rw [ih]
    unfold HandlerManager.handle
    cases d with
    | none =>
      have hfr : firstReg ((p, (none : Option H)) :: rs) u = firstReg rs u := by
        unfold firstReg
        rw [List.find?_cons_of_neg _ (by simp)]
      rw [hfr]
    | some dv =>
      simp only
      split
    /- rejected registration: p empty or already present -/
      · next hguard =>
        by_cases hup : p = u
        · subst hup
          rcases hguard with hpe | hsome
          · have hfr : firstReg ((p, some dv) :: rs) p = firstReg rs p := by
              unfold firstReg
              rw [List.find?_cons_of_neg _ (by simp [hpe])]
            rw [hfr]
          · have hlksome : ∃ x, m.pattern2handler.lookup p = some x := by
              cases he : m.pattern2handler.lookup p
              · rw [he] at hsome
                simp at hsome
              · exact ⟨_, rfl⟩
            obtain ⟨x, hx⟩ := hlksome
            rw [hx]
            simp [Option.orElse]
        · have hfr : firstReg ((p, some dv) :: rs) u = firstReg rs u := by
            unfold firstReg
            rw [List.find?_cons_of_neg _ (by simp; intro e; exact absurd e hup)]
          rw [hfr]
      /- accepted registration -/
      · next hguard =>
        push_neg at hguard
        obtain ⟨hpe, hlk⟩ := hguard
        have hlknone : m.pattern2handler.lookup p = none := by
          cases he : m.pattern2handler.lookup p
          · rfl
          · rw [he] at hlk
            simp at hlk
        have hmap2 : ((if strEndsWithChar p '/' then
              (true, { m with
                pattern2handler := m.pattern2handler ++ [(p, dv)],
                handlers := insertByLen m.handlers p dv })
            else
              (true, { m with
                pattern2handler := m.pattern2handler ++ [(p, dv)] })).2).pattern2handler =
            m.pattern2handler ++ [(p, dv)] := by
          split <;> rfl
        rw [hmap2]
        rw [glookup_append, glookup_singleton]
        by_cases hup : u = p
        · subst hup
          rw [hlknone]
          have hfr : firstReg ((u, some dv) :: rs) u = some dv := by
            unfold firstReg
            rw [List.find?_cons_of_pos _ (by simp [hpe])]
          rw [hfr]
          simp [Option.orElse]
        · have hfr : firstReg ((p, some dv) :: rs) u = firstReg rs u := by
            unfold firstReg
            rw [List.find?_cons_of_neg _ (by simp; intro e; exact absurd e.symm hup)]
          rw [hfr, if_neg hup]
          cases he : m.pattern2handler.lookup u <;> simp [he, Option.orElse]

/-! ## Claim C2 -/

/-- C2: for a manager built by a sequence of handle registrations from the
empty state: an exact registered pattern matches to its registered handler
(the exact map holds the first accepted registration per pattern); when no
exact entry exists and some registered trailing-slash pattern prefixes the
uri, match returns the handler of the longest such pattern; when neither
applies, match returns null.  The trailing-slash vector holds exactly the
registered trailing-slash patterns and handle keeps it sorted by descending
pattern length. -/
theorem C2_match_exact_then_longest_slash_pattern {H : Type}
    (regs : List (String × Option H)) (u : String) (m : HandlerManager H)
    (hm : registerAll regs {} = m) :
    (∀ hv, m.pattern2handler.lookup u = some hv → m.matchHandler u = some hv) ∧
    (m.pattern2handler.lookup u = firstReg regs u) ∧
    (∀ p hv, m.pattern2handler.lookup u = none → (p, hv) ∈ m.handlers →
      strStartsWith u p = true →
      (∀ q g, (q, g) ∈ m.handlers → strStartsWith u q = true →
        q.toList.length ≤ p.toList.length) →
      m.matchHandler u = some hv) ∧
    (m.pattern2handler.lookup u = none →
      (∀ q g, (q, g) ∈ m.handlers → strStartsWith u q = false) →
      m.matchHandler u = none) ∧
    (∀ p hv, (p, hv) ∈ m.handlers ↔
      (m.pattern2handler.lookup p = some hv ∧ strEndsWithChar p '/' = true)) ∧
    m.handlers.Pairwise (fun a b => b.1.toList.length ≤ a.1.toList.length) := by
  have hwf : HMWF m := by
    rw [← hm]
    exact registerAll_wf regs {} (by exact ⟨List.nodup_nil, List.nodup_nil, List.Pairwise.nil, by simp [List.lookup]⟩)
  obtain ⟨hw1, hw2, hw3, hw4⟩ := hwf
  refine ⟨?_, ?_, ?_, ?_, hw4, hw3⟩
  · intro hv hl
    unfold HandlerManager.matchHandler
    rw [hl]
  · rw [← hm, registerAll_lookup]
    simp [List.lookup, Option.orElse]
  · intro p hv hnone hmem hsw hmax
    unfold HandlerManager.matchHandler
    rw [hnone, sorted_find_longest u m.handlers p hv hw3 hw2 hmem hsw hmax]
  · intro hnone hall
    unfold HandlerManager.matchHandler
    rw [hnone]
    have : m.handlers.find? (fun p => strStartsWith u p.1) = none := by
      rw [List.find?_eq_none]
      intro x hx
      obtain ⟨q, g⟩ := x
      simp [hall q g hx]
    rw [this]

/-- Concrete registry for the C2 witness (handlers abstracted as numbers). -/
def c2Mgr : HandlerManager Nat :=
  registerAll [("/api/", some 1), ("/api/v1/", some 2), ("/x", some 3)] {}

/-- Witness for C2: exact match, longest-prefix match, and no-match, each
obtained from the claim theorem at concrete inputs. -/
theorem C2_match_exact_then_longest_slash_pattern_witness :
    c2Mgr.matchHandler "/x" = some 3 ∧
    c2Mgr.matchHandler "/api/v1/users" = some 2 ∧
    c2Mgr.matchHandler "/zzz" = none := by
  have hH : c2Mgr.handlers = [("/api/v1/", 2), ("/api/", 1)] := by decide
  refine ⟨(C2_match_exact_then_longest_slash_pattern _ "/x" c2Mgr rfl).1 3 (by decide),
    ?_, ?_⟩
  · apply (C2_match_exact_then_longest_slash_pattern _ "/api/v1/users" c2Mgr rfl).2.2.1
      "/api/v1/" 2 (by decide) (by decide) (by decide)
    intro q g hq hsw
    rw [hH] at hq
    fin_cases hq <;> decide
  · apply (C2_match_exact_then_longest_slash_pattern _ "/zzz" c2Mgr rfl).2.2.2.1 (by decide)
    intro q g hq
    rw [hH] at hq
    fin_cases hq <;> decide

/-! ## Segmented buffer (BufferVector, src/include/tinywebserver/utils/buffer_vector.h) -/

/-- BufferVector state restricted to the operations claims C6 and C7
exercise: write(const char*, size_t), read(char*, size_t), readable_size,
writeable_size, ensure_writeable and the helpers these call
(add_segment, forward_reader, forward_writer, Segment::read,
Segment::write, Segment::clear).  Under these operations every segment in
data_ is an owned Segment(cap_) whose size stays cap_ (Segment::clear
resets size to cap), so a segment is embedded as its byte array of length
cap_; fresh segments carry zero bytes and the proofs show reads never
reach unwritten positions.  it_write_ becomes the index iw into data_;
the read cursor is always the front segment at offset n_read_. -/
structure BV where
  data : List (List Char)
  cap : Nat
  iw : Nat
  nRead : Nat
  nWrite : Nat
deriving Repr, DecidableEq

/-- A fresh owned Segment(cap): capacity cap, size cap (lines 51-58). -/
def freshSeg (cap : Nat) : List Char := List.replicate cap (Char.ofNat 0)

/-- BufferVector::add_segment (lines 410-416): when it_write_ is at the
container end, the first segment is emplaced there and it_write_ points at
it (its index is the old length, unchanged as a number); the remaining
n-1 (otherwise n) segments are appended at the back. -/
def BV.add_segment (b : BV) (n : Nat) : BV :=
  let isEnd := b.iw = b.data.length
  let d1 := if isEnd then b.data ++ [freshSeg b.cap] else b.data
  { b with data := d1 ++ List.replicate (n - (if isEnd then 1 else 0)) (freshSeg b.cap) }

/-- BufferVector(capacity) (lines 166-169): it_write_ starts at the end of
the empty list, then add_segment(1). -/
def BV.mk0 (cap : Nat) : BV :=
  BV.add_segment { data := [], cap := cap, iw := 0, nRead := 0, nWrite := 0 } 1

/-- BufferVector::writeable_size (lines 191-198): bytes left in the
it_write_ segment plus the full sizes of the segments after it.  The
dereference of an end iterator (unreachable in well-formed states) is
embedded as 0. -/
def BV.writeable_size (b : BV) : Nat :=
  if b.data = [] then 0
  else
    match b.data.drop b.iw with
    | [] => 0
    | s :: rest => (s.length - b.nWrite) + (rest.map List.length).sum

/-- BufferVector::readable_size (lines 210-216). -/
def BV.readable_size (b : BV) : Nat :=
  if b.data = [] then 0
  else ((b.data.take b.iw).map List.length).sum + b.nWrite - b.nRead

/-- BufferVector::ensure_writeable (lines 242-248). -/
def BV.ensure_writeable (b : BV) (size : Nat) : BV :=
  let remain := b.writeable_size
  if remain > size then b
  else b.add_segment ((size - remain) / b.cap + 1)

/-- BufferVector::forward_writer (lines 432-437). -/
def BV.forward_writer (b : BV) : BV :=
  if b.nWrite = 0 then b
  else
    let b2 := { b with iw := b.iw + 1 }
    let b3 := if b2.iw = b2.data.length then b2.add_segment 1 else b2
    { b3 with nWrite := 0 }

/-- BufferVector::forward_reader (lines 421-427): pop the front segment,
recycle it (owned segments always clear to full capacity) at the back,
reset n_read_.  Popping the front moves it_write_ down one index. -/
def BV.forward_reader (b : BV) : BV :=
  match b.data with
  | [] => b
  | f :: rest => { b with data := rest ++ [f], iw := b.iw - 1, nRead := 0 }

/-- One iteration of the write loop body (lines 274-282): write
cnt = min(remaining, it_write_->size - n_write_) bytes into the it_write_
segment at offset n_write_ (Segment::write, lines 134-139), advance the
writer when the segment fills; returns the new buffer and the remaining
source bytes. -/
def BV.wstep (b : BV) (src : List Char) : BV × List Char :=
  let seg := b.data.getD b.iw []
  let cnt := min src.length (seg.length - b.nWrite)
  let seg2 := seg.take b.nWrite ++ src.take cnt ++ seg.drop (b.nWrite + cnt)
  let b2 := { b with data := b.data.set b.iw seg2, nWrite := b.nWrite + cnt }
  (if b2.nWrite = seg2.length then b2.forward_writer else b2, src.drop cnt)

/-- The write loop of BufferVector::write, fuel-bounded.  In well-formed
states each iteration makes progress, so fuel src.length + 1 is
sufficient (established by the lemmas below). -/
def BV.writeAux : Nat → List Char → BV → BV
  | 0, _, b => b
  | f + 1, src, b =>
    if src = [] then b
    else BV.writeAux f (b.wstep src).2 (b.wstep src).1

/-- BufferVector::write(const char*, size_t) (lines 272-284):
ensure_writeable(size) then the write loop. -/
def BV.write (b : BV) (src : List Char) : BV :=
  BV.writeAux (src.length + 1) src (b.ensure_writeable src.length)

/-- One iteration of the read loop body (lines 257-265): take
cnt = min(remaining, front.size - n_read_) bytes from the front segment at
offset n_read_ (Segment::read, lines 124-129), recycle the front segment
once fully consumed; returns the bytes read, the new buffer and the
remaining request size. -/
def BV.rstep (b : BV) (size : Nat) : List Char × BV × Nat :=
  let front := b.data.headD []
  let cnt := min size (front.length - b.nRead)
  let out := (front.drop b.nRead).take cnt
  let b2 := { b with nRead := b.nRead + cnt }
  (out, if b2.nRead = front.length then b2.forward_reader else b2, size - cnt)

/-- The read loop of BufferVector::read, fuel-bounded. -/
def BV.readAux : Nat → Nat → BV → (List Char × BV)
  | 0, _, b => ([], b)
  | f + 1, size, b =>
    if size = 0 then ([], b)
    else
      let p := BV.readAux f (b.rstep size).2.2 (b.rstep size).2.1
      ((b.rstep size).1 ++ p.1, p.2)

/-- BufferVector::read(char*, size_t) (lines 254-267): read_size =
min(size, readable_size()), then the read loop; returns the bytes read. -/
def BV.read (b : BV) (size : Nat) : List Char × BV :=
  BV.readAux (size + 1) (min size b.readable_size) b

/-- The readable region: bytes from the front segment at offset n_read_ up
to the write cursor (segment iw, offset n_write_). -/
def BV.contents (b : BV) : List Char :=
  ((b.data.take b.iw).flatten ++ (b.data.getD b.iw []).take b.nWrite).drop b.nRead

/-- States reachable by the modelled operation set: non-empty segment
list, writer index in range, every segment of size cap, writer and reader
offsets strictly inside their segments, reader behind writer when both sit
in the same segment. -/
def BVWF (b : BV) : Prop :=
  b.data ≠ [] ∧ b.iw < b.data.length ∧ (∀ s ∈ b.data, s.length = b.cap) ∧
  b.nWrite < b.cap ∧ b.nRead < b.cap ∧ (b.iw = 0 → b.nRead ≤ b.nWrite)

/-- One write(src, n) or read(dst, n) call in a C6 operation sequence. -/
inductive BufOp where
  | write (src : List Char)
  | read (n : Nat)

/-- Final state, concatenated written bytes and concatenated read bytes of
an operation sequence. -/
structure RunRes where
  state : BV
  written : List Char
  readOut : List Char

/-- Run a sequence of write/read calls. -/
def runOps : List BufOp → BV → RunRes
  | [], b => ⟨b, [], []⟩
  | .write src :: ops, b =>
    let res := runOps ops (b.write src)
    ⟨res.state, src ++ res.written, res.readOut⟩
  | .read n :: ops, b =>
    let p := b.read n
    let res := runOps ops p.2
    ⟨res.state, res.written, p.1 ++ res.readOut⟩

/-! ## List helper lemmas for the segmented buffer -/

lemma take_set_eq {α : Type} (l : List α) (i : Nat) (x : α) :
    (l.set i x).take i = l.take i := by
  induction l generalizing i with
  | nil => simp
  | cons a t ih =>
    cases i with
    | zero => simp
    | succ j => simp [List.set, List.take, ih]

lemma getD_set_self {α : Type} (l : List α) (i : Nat) (x d : α) (h : i < l.length) :
    (l.set i x).getD i d = x := by
  induction l generalizing i with
  | nil => simp at h
  | cons a t ih =>
    cases i with
    | zero => simp [List.getD]
    | succ j =>
      simp only [List.set]
      simp only [List.getD, List.get?] at ih ⊢
      exact ih j (by simpa using h)

lemma getD_append_left {α : Type} (l m : List α) (i : Nat) (d : α) (h : i < l.length) :
    (l ++ m).getD i d = l.getD i d := by
  induction l generalizing i with
  | nil => simp at h
  | cons a t ih =>
    cases i with
    | zero => simp [List.getD]
    | succ j =>
      simp only [List.cons_append, List.getD, List.get?] at ih ⊢
      exact ih j (by simpa using h)

lemma getD_append_self {α : Type} (l : List α) (x d : α) :
    (l ++ [x]).getD l.length d = x := by
  induction l with
  | nil => simp [List.getD]
  | cons a t ih =>
    simp only [List.cons_append, List.length_cons, List.getD, List.get?] at ih ⊢
    exact ih

lemma getD_cons_succ {α : Type} (a : α) (l : List α) (i : Nat) (d : α) :
    (a :: l).getD (i + 1) d = l.getD i d := by
  simp [List.getD]

lemma getD_mem {α : Type} (l : List α) (i : Nat) (d : α) (h : i < l.length) :
    l.getD i d ∈ l := by
  induction l generalizing i with
  | nil => simp at h
  | cons a t ih =>
    cases i with
    | zero => simp [List.getD]
    | succ j =>
      simp only [List.getD, List.get?] at ih ⊢
      exact List.mem_cons_of_mem _ (ih j (by simpa using h))

lemma mem_set {α : Type} (l : List α) (i : Nat) (x : α) :
    ∀ s ∈ l.set i x, s ∈ l ∨ s = x := by
  induction l generalizing i with
  | nil => simp
  | cons a t ih =>
    cases i with
    | zero =>
      intro s hs
      rcases List.mem_cons.mp hs with rfl | hs2
      · exact Or.inr rfl
      · exact Or.inl (List.mem_cons_of_mem _ hs2)
    | succ j =>
      intro s hs
      rcases List.mem_cons.mp hs with rfl | hs2
      · exact Or.inl (List.mem_cons_self _ _)
      · rcases ih j s hs2 with h2 | h2
        · exact Or.inl (List.mem_cons_of_mem _ h2)
        · exact Or.inr h2

lemma take_flatten_succ {α : Type} (l : List (List α)) (i : Nat) (d : List α)
    (h : i < l.length) :
    (l.take (i + 1)).flatten = (l.take i).flatten ++ l.getD i d := by
  rw [List.take_succ]
  have h1 : l[i]? = some (l.getD i d) := by
    rw [List.getElem?_eq_getElem h, List.getD_eq_getElem l d h]
  rw [h1]
  simp

/-! ## Structural lemmas for BufferVector -/

lemma freshSeg_length (cap : Nat) : (freshSeg cap).length = cap := by
  simp [freshSeg]

lemma add_segment_not_end (b : BV) (n : Nat) (hiw : b.iw ≠ b.data.length) :
    b.add_segment n = { b with data := b.data ++ List.replicate n (freshSeg b.cap) } := by
  unfold BV.add_segment
  simp [hiw]

lemma mk0_eq (cap : Nat) :
    BV.mk0 cap = { data := [freshSeg cap], cap := cap, iw := 0, nRead := 0, nWrite := 0 } := rfl

lemma mk0_wf (cap : Nat) (hcap : 0 < cap) : BVWF (BV.mk0 cap) := by
  rw [mk0_eq]
  refine ⟨by simp, by simp, ?_, by simpa, by simpa, by simp⟩
  intro s hs
  simp at hs
  simp [hs, freshSeg_length]

lemma mk0_contents (cap : Nat) : (BV.mk0 cap).contents = [] := by
  rw [mk0_eq]
  simp [BV.contents]

lemma wf_append_segs (b : BV) (n : Nat) (hwf : BVWF b) :
    BVWF { b with data := b.data ++ List.replicate n (freshSeg b.cap) } := by
  obtain ⟨hne, hiw, hall, hnw, hnr, hrw⟩ := hwf
  refine ⟨by simp [hne], ?_, ?_, hnw, hnr, hrw⟩
  · simp only [List.length_append]
    omega
  · intro s hs
    rcases List.mem_append.mp hs with hs2 | hs2
    · exact hall s hs2
    · rw [List.eq_of_mem_replicate hs2]
      exact freshSeg_length b.cap

lemma contents_append_segs (b : BV) (n : Nat) (hiw : b.iw < b.data.length) :
    ({ b with data := b.data ++ List.replicate n (freshSeg b.cap) } : BV).contents =
      b.contents := by
  unfold BV.contents
  simp only
  rw [List.take_append_of_le_length (le_of_lt hiw), getD_append_left _ _ _ _ hiw]

lemma readable_append_segs (b : BV) (n : Nat) (hne : b.data ≠ []) (hiw : b.iw < b.data.length) :
    ({ b with data := b.data ++ List.replicate n (freshSeg b.cap) } : BV).readable_size =
      b.readable_size := by
  unfold BV.readable_size
  simp only
  rw [if_neg (by simp [hne]), if_neg hne,
    List.take_append_of_le_length (le_of_lt hiw)]

lemma writeable_append_segs (b : BV) (n : Nat) (hne : b.data ≠ [])
    (hiw : b.iw < b.data.length) :
    ({ b with data := b.data ++ List.replicate n (freshSeg b.cap) } : BV).writeable_size =
      b.writeable_size + n * b.cap := by
  unfold BV.writeable_size
  simp only
  rw [if_neg (by simp [hne]), if_neg hne,
    List.drop_append_of_le_length (le_of_lt hiw)]
  cases hd : b.data.drop b.iw with
  | nil =>
    exfalso
    have : (b.data.drop b.iw).length = 0 := by rw [hd]; rfl
    rw [List.length_drop] at this
    omega
  | cons s rest =>
    simp only [List.cons_append, List.map_append, List.sum_append, List.map_replicate,
      freshSeg_length, List.sum_replicate, smul_eq_mul]
    omega

lemma readable_eq_contents (b : BV) (hwf : BVWF b) :
    b.readable_size = b.contents.length := by
  obtain ⟨hne, hiw, hall, hnw, hnr, hrw⟩ := hwf
  unfold BV.readable_size BV.contents
  rw [if_neg hne]
  have hseg : (b.data.getD b.iw []).length = b.cap :=
    hall _ (getD_mem _ _ _ hiw)
  have hflat : (b.data.take b.iw).flatten.length =
      ((b.data.take b.iw).map List.length).sum := List.length_flatten _
  rw [List.length_drop, List.length_append, hflat, List.length_take, hseg]
  rcases Nat.eq_zero_or_pos b.iw with hz | hpos
  · rw [hz] at hrw ⊢
    simp only [List.take_zero, List.map_nil, List.sum_nil, Nat.zero_add]
    omega
  · have hfirst : b.cap ≤ ((b.data.take b.iw).map List.length).sum := by
      cases hdd : b.data with
      | nil => exact absurd hdd hne
      | cons f rest =>
        have hf : f.length = b.cap := hall f (by rw [hdd]; exact List.mem_cons_self _ _)
        cases hi : b.iw with
        | zero => omega
        | succ j =>
          simp only [List.take_succ_cons, List.map_cons, List.sum_cons, hf]
          omega
    omega

lemma ensure_writeable_shape (b : BV) (n : Nat) (hwf : BVWF b) :
    ∃ k, b.ensure_writeable n =
      { b with data := b.data ++ List.replicate k (freshSeg b.cap) } := by
  obtain ⟨hne, hiw, hall, hnw, hnr, hrw⟩ := hwf
  unfold BV.ensure_writeable
  by_cases hgt : b.writeable_size > n
  · refine ⟨0, ?_⟩
    rw [if_pos hgt]
    simp
  · refine ⟨(n - b.writeable_size) / b.cap + 1, ?_⟩
    rw [if_neg hgt, add_segment_not_end _ _ (by omega)]

lemma ensure_writeable_gt (b : BV) (n : Nat) (hwf : BVWF b) :
    n < (b.ensure_writeable n).writeable_size := by
  obtain ⟨hne, hiw, hall, hnw, hnr, hrw⟩ := id hwf
  unfold BV.ensure_writeable
  by_cases hgt : b.writeable_size > n
  · rw [if_pos hgt]
    exact hgt
  · rw [if_neg hgt, add_segment_not_end _ _ (by omega)]
    rw [writeable_append_segs b _ hne hiw]
    have hcap : 0 < b.cap := by omega
    have hdm := Nat.div_add_mod (n - b.writeable_size) b.cap
    have hmod := Nat.mod_lt (n - b.writeable_size) hcap
    have hq : ((n - b.writeable_size) / b.cap + 1) * b.cap =
        b.cap * ((n - b.writeable_size) / b.cap) + b.cap := by ring
    push_neg at hgt
    rw [hq]
    omega

/-! ## Claim C7 -/

/-- C7: for every reachable segmented buffer state and every n,
ensure_writeable(n) guarantees writeable_size() > n, and the call only
appends fresh owned segments of the configured capacity at the tail: the
existing segments, cursors, the readable size and the readable region are
all unchanged (and well-formedness is preserved). -/
theorem C7_ensure_writeable_appends_tail (b : BV) (n : Nat) (hwf : BVWF b) :
    n < (b.ensure_writeable n).writeable_size ∧
    (∃ k, (b.ensure_writeable n).data = b.data ++ List.replicate k (freshSeg b.cap)) ∧
    (b.ensure_writeable n).cap = b.cap ∧
    (b.ensure_writeable n).iw = b.iw ∧
    (b.ensure_writeable n).nRead = b.nRead ∧
    (b.ensure_writeable n).nWrite = b.nWrite ∧
    (b.ensure_writeable n).readable_size = b.readable_size ∧
    (b.ensure_writeable n).contents = b.contents ∧
    BVWF (b.ensure_writeable n) := by
  obtain ⟨k, hk⟩ := ensure_writeable_shape b n hwf
  obtain ⟨hne, hiw, hall, hnw, hnr, hrw⟩ := id hwf
  refine ⟨ensure_writeable_gt b n hwf, ⟨k, by rw [hk]⟩, by rw [hk], by rw [hk],
    by rw [hk], by rw [hk], ?_, ?_, ?_⟩
  · rw [hk]
    exact readable_append_segs b k hne hiw
  · rw [hk]
    exact contents_append_segs b k hiw
  · rw [hk]
    exact wf_append_segs b k hwf

/-- Witness for C7: the fresh cap-3 buffer extended to hold more than
10 writable bytes, with the readable region untouched. -/
theorem C7_ensure_writeable_appends_tail_witness :
    10 < ((BV.mk0 3).ensure_writeable 10).writeable_size ∧
    ((BV.mk0 3).ensure_writeable 10).contents = (BV.mk0 3).contents :=
  ⟨(C7_ensure_writeable_appends_tail (BV.mk0 3) 10 (mk0_wf 3 (by decide))).1,
   (C7_ensure_writeable_appends_tail (BV.mk0 3) 10 (mk0_wf 3 (by decide))).2.2.2.2.2.2.2.1⟩

lemma forward_writer_spec (b : BV) (hne : b.data ≠ []) (hiw : b.iw < b.data.length)
    (hall : ∀ s ∈ b.data, s.length = b.cap) (hnw : b.nWrite = b.cap)
    (hcap : 0 < b.cap) (hnr : b.nRead < b.cap) :
    BVWF b.forward_writer ∧ b.forward_writer.cap = b.cap ∧
      b.forward_writer.contents = b.contents := by
  have hsegfull : (b.data.getD b.iw []).take b.nWrite = b.data.getD b.iw [] := by
    apply List.take_of_length_le
    rw [hall _ (getD_mem _ _ _ hiw), hnw]
  have hcb : b.contents = ((b.data.take (b.iw + 1)).flatten).drop b.nRead := by
    unfold BV.contents
    rw [hsegfull, take_flatten_succ _ _ [] hiw]
  by_cases hend : b.iw + 1 = b.data.length
  · have hres : b.forward_writer =
        { b with data := b.data ++ [freshSeg b.cap], iw := b.iw + 1, nWrite := 0 } := by
      unfold BV.forward_writer BV.add_segment
      rw [if_neg (by omega)]
      simp [hend]
    rw [hres]
    refine ⟨⟨by simp, by simp; omega, ?_, by simpa, by simpa,
      by intro h2; simp at h2⟩, rfl, ?_⟩
    · intro s hs
      rcases List.mem_append.mp hs with hs2 | hs2
      · exact hall s hs2
      · simp at hs2
        rw [hs2]
        exact freshSeg_length b.cap
    · show ((((b.data ++ [freshSeg b.cap]).take (b.iw + 1)).flatten ++
        (((b.data ++ [freshSeg b.cap]).getD (b.iw + 1) []).take 0)).drop b.nRead) = _
      rw [hcb, hend]
      rw [List.take_left, List.take_zero, List.append_nil, List.take_length]
  · have hres : b.forward_writer = { b with iw := b.iw + 1, nWrite := 0 } := by
      unfold BV.forward_writer
      rw [if_neg (by omega)]
      simp [hend]
    rw [hres]
    refine ⟨⟨hne, by simp; omega, hall, by simpa, by simpa,
      by intro h2; simp at h2⟩, rfl, ?_⟩
    show (((b.data.take (b.iw + 1)).flatten ++
      ((b.data.getD (b.iw + 1) []).take 0)).drop b.nRead) = _
    rw [hcb, List.take_zero, List.append_nil]

lemma prefix_len_bound (b : BV) (hwf : BVWF b) :
    b.nRead ≤ ((b.data.take b.iw).flatten).length + b.nWrite := by
  obtain ⟨hne, hiw, hall, hnw, hnr, hrw⟩ := hwf
  rcases Nat.eq_zero_or_pos b.iw with hz | hpos
  · rw [hz]
    simpa using hrw hz
  · have hfirst : b.cap ≤ ((b.data.take b.iw).flatten).length := by
      cases hdd : b.data with
      | nil => exact absurd hdd hne
      | cons f rest =>
        have hf : f.length = b.cap := hall f (by rw [hdd]; exact List.mem_cons_self _ _)
        cases hi : b.iw with
        | zero => omega
        | succ j =>
          simp only [List.take_succ_cons, List.flatten_cons, List.length_append, hf]
          omega
    omega

lemma wstep_spec (b : BV) (src : List Char) (hwf : BVWF b) (hsrc : src ≠ []) :
    (b.wstep src).2 = src.drop (min src.length (b.cap - b.nWrite)) ∧
    1 ≤ min src.length (b.cap - b.nWrite) ∧
    BVWF (b.wstep src).1 ∧ (b.wstep src).1.cap = b.cap ∧
    (b.wstep src).1.contents =
      b.contents ++ src.take (min src.length (b.cap - b.nWrite)) := by
  obtain ⟨hne, hiw, hall, hnw, hnr, hrw⟩ := id hwf
  have hsl : (b.data.getD b.iw []).length = b.cap := hall _ (getD_mem _ _ _ hiw)
  have hsrc1 : 1 ≤ src.length := by
    cases src
    · exact absurd rfl hsrc
    · simp
  have hcnt1 : 1 ≤ min src.length (b.cap - b.nWrite) := by omega
  set cnt := min src.length (b.cap - b.nWrite) with hcntdef
  have hcntsrc : cnt ≤ src.length := by omega
  have hcntcap : b.nWrite + cnt ≤ b.cap := by omega
  set seg := b.data.getD b.iw [] with hsegdef
  set seg2 : List Char :=
    seg.take b.nWrite ++ src.take cnt ++ seg.drop (b.nWrite + cnt) with hseg2def
  have hseg2len : seg2.length = b.cap := by
    rw [hseg2def]
    simp only [List.length_append, List.length_take, List.length_drop, hsl]
    omega
  set b2 : BV := { b with data := b.data.set b.iw seg2, nWrite := b.nWrite + cnt }
    with hb2def
  have hws : b.wstep src =
      (if b2.nWrite = seg2.length then b2.forward_writer else b2, src.drop cnt) := by
    rw [BV.wstep, hb2def, hseg2def, hsegdef, hcntdef, hsl]
  have hb2ne : b2.data ≠ [] := by
    rw [hb2def]
    simp only
    intro he
    rw [← List.length_eq_zero] at he
    simp only [List.length_set] at he
    rw [List.length_eq_zero] at he
    exact hne he
  have hb2iw : b2.iw < b2.data.length := by
    rw [hb2def]
    simpa using hiw
  have hb2all : ∀ s ∈ b2.data, s.length = b.cap := by
    rw [hb2def]
    intro s hs
    rcases mem_set _ _ _ s hs with hs2 | hs2
    · exact hall s hs2
    · rw [hs2]
      exact hseg2len
  have hb2cont : b2.contents = b.contents ++ src.take cnt := by
    unfold BV.contents
    rw [hb2def]
    simp only
    rw [take_set_eq, getD_set_self _ _ _ _ hiw]
    have htk : seg2.take (b.nWrite + cnt) = seg.take b.nWrite ++ src.take cnt := by
      have hlenAC : (seg.take b.nWrite ++ src.take cnt).length = b.nWrite + cnt := by
        simp only [List.length_append, List.length_take, hsl]
        omega
      rw [hseg2def, List.take_append_of_le_length (le_of_eq hlenAC.symm),
        List.take_of_length_le (le_of_eq hlenAC)]
    rw [htk, ← List.append_assoc]
    have hbound : b.nRead ≤ ((b.data.take b.iw).flatten ++ seg.take b.nWrite).length := by
      have hb := prefix_len_bound b hwf
      simp only [List.length_append, List.length_take, hsl]
      omega
    rw [List.drop_append_of_le_length hbound]
  rw [hws]
  refine ⟨rfl, hcnt1, ?_, ?_, ?_⟩
  · simp only
    split
    · next hfull =>
      have hnwc : b2.nWrite = b.cap := by
        rw [hseg2len] at hfull
        exact hfull
      exact (forward_writer_spec b2 hb2ne hb2iw hb2all hnwc
        (by rw [hb2def]; simp only; omega)
        (by rw [hb2def]; simpa using hnr)).1
    · next hless =>
      rw [hseg2len] at hless
      have hlt : b.nWrite + cnt < b.cap := by
        rcases Nat.lt_or_ge (b.nWrite + cnt) b.cap with h2 | h2
        · exact h2
        · exact absurd (le_antisymm hcntcap h2) hless
      refine ⟨hb2ne, hb2iw, hb2all, by rw [hb2def]; simpa using hlt,
        by rw [hb2def]; simpa using hnr, ?_⟩
      rw [hb2def]
      intro hz
      simp only at hz ⊢
      have := hrw hz
      omega
  · simp only
    split
    · next hfull =>
      have hnwc : b2.nWrite = b.cap := by
        rw [hseg2len] at hfull
        exact hfull
      have := (forward_writer_spec b2 hb2ne hb2iw hb2all hnwc
        (by rw [hb2def]; simp only; omega)
        (by rw [hb2def]; simpa using hnr)).2.1
      rw [this, hb2def]
    · rw [hb2def]
  · simp only
    split
    · next hfull =>
      have hnwc : b2.nWrite = b.cap := by
        rw [hseg2len] at hfull
        exact hfull
      have := (forward_writer_spec b2 hb2ne hb2iw hb2all hnwc
        (by rw [hb2def]; simp only; omega)
        (by rw [hb2def]; simpa using hnr)).2.2
      rw [this, hb2cont]
    · exact hb2cont

lemma writeAux_spec : ∀ (f : Nat) (src : List Char) (b : BV), BVWF b →
    src.length ≤ f →
    BVWF (BV.writeAux f src b) ∧ (BV.writeAux f src b).cap = b.cap ∧
    (BV.writeAux f src b).contents = b.contents ++ src := by
  intro f
  induction f with
  | zero =>
    intro src b hwf hle
    have hz : src = [] := List.length_eq_zero.mp (Nat.le_zero.mp hle)
    subst hz
    exact ⟨hwf, rfl, by simp [BV.writeAux]⟩
  | succ f ih =>
    intro src b hwf hle
    unfold BV.writeAux
    by_cases hsrc : src = []
    · subst hsrc
      simp only [if_pos rfl]
      exact ⟨hwf, rfl, by simp⟩
    · rw [if_neg hsrc]
      obtain ⟨hdrop, hcnt, hwf2, hcap2, hcont2⟩ := wstep_spec b src hwf hsrc
      have hlen2 : (b.wstep src).2.length ≤ f := by
        rw [hdrop, List.length_drop]
        omega
      obtain ⟨ihwf, ihcap, ihcont⟩ := ih (b.wstep src).2 (b.wstep src).1 hwf2 hlen2
      refine ⟨ihwf, by rw [ihcap, hcap2], ?_⟩
      rw [ihcont, hcont2, hdrop, List.append_assoc, List.take_append_drop]

lemma write_spec (b : BV) (src : List Char) (hwf : BVWF b) :
    BVWF (b.write src) ∧ (b.write src).cap = b.cap ∧
    (b.write src).contents = b.contents ++ src := by
  unfold BV.write
  obtain ⟨k, hk⟩ := ensure_writeable_shape b src.length hwf
  obtain ⟨hne, hiw, hall, hnw, hnr, hrw⟩ := id hwf
  rw [hk]
  obtain ⟨hwf2, hcap2, hcont2⟩ :=
    writeAux_spec (src.length + 1) src _ (wf_append_segs b k hwf) (by omega)
  refine ⟨hwf2, by rw [hcap2], ?_⟩
  rw [hcont2, contents_append_segs b k hiw]

lemma forward_reader_spec (b : BV) (hne : b.data ≠ []) (hiw1 : 1 ≤ b.iw)
    (hiw : b.iw < b.data.length) (hall : ∀ s ∈ b.data, s.length = b.cap)
    (hnw : b.nWrite < b.cap) (hnr : b.nRead = b.cap) :
    BVWF b.forward_reader ∧ b.forward_reader.cap = b.cap ∧
      b.forward_reader.contents = b.contents := by
  cases hdd : b.data with
  | nil => exact absurd hdd hne
  | cons f rest =>
    have hres : b.forward_reader = { b with data := rest ++ [f], iw := b.iw - 1, nRead := 0 } := by
      unfold BV.forward_reader
      rw [hdd]
    have hf : f.length = b.cap := hall f (by rw [hdd]; exact List.mem_cons_self _ _)
    have hrlen : b.iw - 1 < rest.length := by
      have : b.data.length = rest.length + 1 := by rw [hdd]; simp
      omega
    have hiwsucc : b.iw = (b.iw - 1) + 1 := by omega
    have hcb : b.contents =
        ((rest.take (b.iw - 1)).flatten ++ (rest.getD (b.iw - 1) []).take b.nWrite) := by
      unfold BV.contents
      rw [hdd, hiwsucc, List.take_succ_cons, getD_cons_succ, List.flatten_cons,
        List.append_assoc, hnr, ← hf, List.drop_left]
      simp
    rw [hres]
    refine ⟨⟨by simp, ?_, ?_, hnw, show (0 : Nat) < b.cap by omega,
      fun h2 => Nat.zero_le _⟩, rfl, ?_⟩
    · show b.iw - 1 < (rest ++ [f]).length
      simp only [List.length_append, List.length_singleton]
      omega
    · intro s hs
      rcases List.mem_append.mp hs with hs2 | hs2
      · exact hall s (by rw [hdd]; exact List.mem_cons_of_mem _ hs2)
      · simp at hs2
        rw [hs2]
        exact hf
    · show ((((rest ++ [f]).take (b.iw - 1)).flatten ++
        (((rest ++ [f]).getD (b.iw - 1) []).take b.nWrite)).drop 0) = _
      rw [List.drop_zero, List.take_append_of_le_length hrlen.le,
        getD_append_left _ _ _ _ hrlen, hcb]

lemma rstep_spec (b : BV) (size : Nat) (hwf : BVWF b) (hsz1 : 1 ≤ size)
    (hsz : size ≤ b.contents.length) :
    1 ≤ min size (b.cap - b.nRead) ∧
    (b.rstep size).2.2 = size - min size (b.cap - b.nRead) ∧
    (b.rstep size).1 = b.contents.take (min size (b.cap - b.nRead)) ∧
    BVWF (b.rstep size).2.1 ∧ (b.rstep size).2.1.cap = b.cap ∧
    (b.rstep size).2.1.contents = b.contents.drop (min size (b.cap - b.nRead)) := by
  obtain ⟨hne, hiw, hall, hnw, hnr, hrw⟩ := id hwf
  cases hdd : b.data with
  | nil => exact absurd hdd hne
  | cons f rest =>
  have hf : f.length = b.cap := hall f (by rw [hdd]; exact List.mem_cons_self _ _)
  have hhead : b.data.headD [] = f := by rw [hdd]; rfl
  set cnt := min size (b.cap - b.nRead) with hcnt
  have hcnt1 : 1 ≤ cnt := by omega
  have hcntsz : cnt ≤ size := by omega
  set b2 : BV := { b with nRead := b.nRead + cnt } with hb2
  have hrs : b.rstep size = ((f.drop b.nRead).take cnt,
      (if b2.nRead = f.length then b2.forward_reader else b2), size - cnt) := by
    rw [BV.rstep, hhead, hf]
  have hcont2 : b2.contents = b.contents.drop cnt := by
    show ((b.data.take b.iw).flatten ++
      (b.data.getD b.iw []).take b.nWrite).drop (b.nRead + cnt) = b.contents.drop cnt
    unfold BV.contents
    rw [List.drop_drop, Nat.add_comm]
  have hgd0 : b.data.getD 0 [] = f := by rw [hdd]; rfl
  have hiw0len : b.iw = 0 → b.contents.length = b.nWrite - b.nRead := by
    intro hz
    unfold BV.contents
    rw [hz, hgd0, List.take_zero, List.flatten_nil, List.nil_append,
      List.length_drop, List.length_take, hf]
    omega
  have hout : (f.drop b.nRead).take cnt = b.contents.take cnt := by
    rcases Nat.eq_zero_or_pos b.iw with hz | hpos
    · have hcontents : b.contents = (f.take b.nWrite).drop b.nRead := by
        unfold BV.contents
        rw [hz, hgd0, List.take_zero, List.flatten_nil, List.nil_append]
      have hcle : cnt ≤ b.nWrite - b.nRead := by
        have := hiw0len hz
        omega
      rw [hcontents, List.drop_take, List.take_take, min_eq_left hcle]
    · have hiwsucc : b.iw = (b.iw - 1) + 1 := by omega
      have hcontents : b.contents = f.drop b.nRead ++
          ((rest.take (b.iw - 1)).flatten ++ (rest.getD (b.iw - 1) []).take b.nWrite) := by
        unfold BV.contents
        rw [hdd, hiwsucc, List.take_succ_cons, getD_cons_succ, List.flatten_cons,
          List.append_assoc, List.drop_append_of_le_length (by rw [hf]; omega)]
        simp
      rw [hcontents, List.take_append_of_le_length (by rw [List.length_drop, hf]; omega)]
  have hifspec : BVWF (if b2.nRead = f.length then b2.forward_reader else b2) ∧
      (if b2.nRead = f.length then b2.forward_reader else b2).cap = b.cap ∧
      (if b2.nRead = f.length then b2.forward_reader else b2).contents =
        b.contents.drop cnt := by
    by_cases heq : b2.nRead = f.length
    · rw [if_pos heq]
      have heqc : b.nRead + cnt = b.cap := by rw [← hf]; exact heq
      have hiwpos : 1 ≤ b.iw := by
        by_contra hzz
        have hz : b.iw = 0 := by omega
        have hlen := hiw0len hz
        omega
      have hsp := forward_reader_spec b2 (show b.data ≠ [] from hne)
        (show 1 ≤ b.iw from hiwpos) (show b.iw < b.data.length from hiw)
        (show ∀ s ∈ b.data, s.length = b.cap from hall)
        (show b.nWrite < b.cap from hnw) (show b.nRead + cnt = b.cap from heqc)
      exact ⟨hsp.1, hsp.2.1, hsp.2.2.trans hcont2⟩
    · rw [if_neg heq]
      have heqc : b.nRead + cnt ≠ b.cap := by rw [← hf]; exact heq
      have hlt2 : b.nRead + cnt < b.cap := by omega
      refine ⟨⟨show b.data ≠ [] from hne, show b.iw < b.data.length from hiw,
        show ∀ s ∈ b.data, s.length = b.cap from hall,
        show b.nWrite < b.cap from hnw, show b.nRead + cnt < b.cap from hlt2, ?_⟩,
        rfl, hcont2⟩
      intro hz
      show b.nRead + cnt ≤ b.nWrite
      have hlen := hiw0len hz
      omega
  rw [hrs]
  exact ⟨hcnt1, rfl, hout, hifspec.1, hifspec.2.1, hifspec.2.2⟩

lemma readAux_spec : ∀ (f size : Nat) (b : BV), BVWF b → size ≤ b.contents.length →
    size ≤ f →
    (BV.readAux f size b).1 = b.contents.take size ∧
    BVWF (BV.readAux f size b).2 ∧ (BV.readAux f size b).2.cap = b.cap ∧
    (BV.readAux f size b).2.contents = b.contents.drop size := by
  intro f
  induction f with
  | zero =>
    intro size b hwf hle hf
    have hz : size = 0 := by omega
    subst hz
    exact ⟨by simp [BV.readAux], hwf, rfl, by simp [BV.readAux]⟩
  | succ f ih =>
    intro size b hwf hle hfuel
    unfold BV.readAux
    by_cases hz : size = 0
    · subst hz
      simp only [if_pos rfl]
      exact ⟨by simp, hwf, rfl, by simp⟩
    · rw [if_neg hz]
      obtain ⟨hcnt1, hrem, hout, hwf2, hcap2, hcont2⟩ :=
        rstep_spec b size hwf (by omega) hle
      have hcsz : min size (b.cap - b.nRead) ≤ size := by omega
      have hrle : (b.rstep size).2.2 ≤ (b.rstep size).2.1.contents.length := by
        rw [hrem, hcont2, List.length_drop]
        omega
      have hrfuel : (b.rstep size).2.2 ≤ f := by
        rw [hrem]
        omega
      obtain ⟨ih1, ih2, ih3, ih4⟩ := ih (b.rstep size).2.2 (b.rstep size).2.1 hwf2 hrle hrfuel
      refine ⟨?_, ih2, by
        show (BV.readAux f (b.rstep size).2.2 (b.rstep size).2.1).2.cap = b.cap
        rw [ih3, hcap2], ?_⟩
      · show (b.rstep size).1 ++
          (BV.readAux f (b.rstep size).2.2 (b.rstep size).2.1).1 = List.take size b.contents
        rw [ih1, hout, hcont2, hrem]
        conv_rhs => rw [show size = min size (b.cap - b.nRead) +
          (size - min size (b.cap - b.nRead)) from by omega]
        rw [List.take_add]
      · show (BV.readAux f (b.rstep size).2.2 (b.rstep size).2.1).2.contents =
          List.drop size b.contents
        rw [ih4, hcont2, hrem, List.drop_drop]
        congr 1
        omega

lemma read_spec (b : BV) (n : Nat) (hwf : BVWF b) :
    (b.read n).1 = b.contents.take n ∧ BVWF (b.read n).2 ∧ (b.read n).2.cap = b.cap ∧
    (b.read n).2.contents = b.contents.drop n := by
  unfold BV.read
  have hreq := readable_eq_contents b hwf
  have hm1 : min n b.readable_size ≤ b.contents.length := by
    rw [← hreq]
    omega
  have hm2 : min n b.readable_size ≤ n + 1 := by omega
  obtain ⟨h1, h2, h3, h4⟩ := readAux_spec (n + 1) (min n b.readable_size) b hwf hm1 hm2
  refine ⟨?_, h2, h3, ?_⟩
  · rw [h1]
    by_cases hc : n ≤ b.readable_size
    · rw [min_eq_left hc]
    · rw [min_eq_right (by omega), hreq, List.take_length,
        List.take_of_length_le (by omega)]
  · rw [h4]
    by_cases hc : n ≤ b.readable_size
    · rw [min_eq_left hc]
    · rw [min_eq_right (by omega), hreq, List.drop_length,
        List.drop_eq_nil_of_le (by omega)]

lemma runOps_spec (ops : List BufOp) : ∀ b : BV, BVWF b →
    BVWF (runOps ops b).state ∧ (runOps ops b).state.cap = b.cap ∧
    (runOps ops b).readOut ++ (runOps ops b).state.contents =
      b.contents ++ (runOps ops b).written := by
  induction ops with
  | nil =>
    intro b hwf
    exact ⟨hwf, rfl, by simp [runOps]⟩
  | cons op ops ih =>
    intro b hwf
    cases op with
    | write src =>
      obtain ⟨hw, hc, he⟩ := write_spec b src hwf
      obtain ⟨ih1, ih2, ih3⟩ := ih (b.write src) hw
      refine ⟨ih1, by rw [show (runOps (.write src :: ops) b).state =
        (runOps ops (b.write src)).state from rfl, ih2, hc], ?_⟩
      show (runOps ops (b.write src)).readOut ++ (runOps ops (b.write src)).state.contents =
        b.contents ++ (src ++ (runOps ops (b.write src)).written)
      rw [ih3, he, List.append_assoc]
    | read n =>
      obtain ⟨ho, hw, hc, he⟩ := read_spec b n hwf
      obtain ⟨ih1, ih2, ih3⟩ := ih (b.read n).2 hw
      refine ⟨ih1, by rw [show (runOps (.read n :: ops) b).state =
        (runOps ops (b.read n).2).state from rfl, ih2, hc], ?_⟩
      show ((b.read n).1 ++ (runOps ops (b.read n).2).readOut) ++
          (runOps ops (b.read n).2).state.contents =
        b.contents ++ (runOps ops (b.read n).2).written
      rw [List.append_assoc, ih3, he, ho, ← List.append_assoc, List.take_append_drop]

/-! ## Claim C6 -/

/-- C6: for every sequence of write(src, n) and read(dst, n) calls on a
BufferVector of positive segment capacity, the total number of bytes
written equals the total number of bytes read plus readable_size(), and
the bytes already read followed by reading back the whole readable region
reproduce the written bytes in write order. -/
theorem C6_segmented_buffer_conservation (ops : List BufOp) (cap : Nat)
    (hcap : 0 < cap) :
    (runOps ops (BV.mk0 cap)).written.length =
      (runOps ops (BV.mk0 cap)).readOut.length +
        (runOps ops (BV.mk0 cap)).state.readable_size ∧
    (runOps ops (BV.mk0 cap)).readOut ++
      ((runOps ops (BV.mk0 cap)).state.read
        (runOps ops (BV.mk0 cap)).state.readable_size).1 =
      (runOps ops (BV.mk0 cap)).written := by
  obtain ⟨hwf, hc, he⟩ := runOps_spec ops (BV.mk0 cap) (mk0_wf cap hcap)
  rw [mk0_contents] at he
  simp only [List.nil_append] at he
  have hrs := readable_eq_contents _ hwf
  constructor
  · rw [← he, List.length_append, hrs]
  · obtain ⟨hr1, _, _, _⟩ := read_spec (runOps ops (BV.mk0 cap)).state
      (runOps ops (BV.mk0 cap)).state.readable_size hwf
    rw [hr1, hrs, List.take_length, he]

/-- Witness for C6 at a concrete run: write "ab", read one byte, write "c"
on a capacity-3 buffer. -/
theorem C6_segmented_buffer_conservation_witness :
    0 < 3 ∧
    ((runOps [.write ['a', 'b'], .read 1, .write ['c']] (BV.mk0 3)).written.length =
      (runOps [.write ['a', 'b'], .read 1, .write ['c']] (BV.mk0 3)).readOut.length +
        (runOps [.write ['a', 'b'], .read 1, .write ['c']] (BV.mk0 3)).state.readable_size ∧
    (runOps [.write ['a', 'b'], .read 1, .write ['c']] (BV.mk0 3)).readOut ++
      ((runOps [.write ['a', 'b'], .read 1, .write ['c']] (BV.mk0 3)).state.read
        (runOps [.write ['a', 'b'], .read 1, .write ['c']] (BV.mk0 3)).state.readable_size).1 =
      (runOps [.write ['a', 'b'], .read 1, .write ['c']] (BV.mk0 3)).written) :=
  ⟨by decide, C6_segmented_buffer_conservation [.write ['a', 'b'], .read 1, .write ['c']] 3
    (by decide)⟩

/-! ## Timer (src/src/timer/timer.cpp, src/src/timer/timer.hpp) -/

/-- Timer::Task fields the scheduling logic touches: id, times (-1 stands
for infinite, 0 invalid/cancelled, positive = remaining runs), interval
and next_run_time (microsecond counts embedded as naturals).  The
callback body is abstracted: an invocation is recorded by task id. -/
structure TTask where
  id : Nat
  times : Int
  interval : Nat
  next_run_time : Nat
deriving Repr, DecidableEq

/-- Task::is_valid (timer.hpp line 57). -/
def TTask.is_valid (t : TTask) : Bool := t.times ≠ 0

/-- Task::reduce_times (timer.hpp lines 71-73). -/
def TTask.reduce_times (t : TTask) : TTask :=
  if t.times > 0 then { t with times := t.times - 1 } else t

/-- std::pop_heap + pop_back on tasks_ extract a task with minimal
next_run_time (the comparator lhs->next_run_time > rhs->next_run_time
makes the vector a min-heap on next_run_time).  The heap layout beyond
the extracted minimum never influences which callbacks run, so the heap
is embedded as the task list and extraction removes the first minimal
element. -/
def removeMin : List TTask → Option (TTask × List TTask)
  | [] => none
  | t :: rest =>
    match removeMin rest with
    | none => some (t, [])
    | some (m, rest2) =>
      if t.next_run_time ≤ m.next_run_time then some (t, rest)
      else some (m, t :: rest2)

/-- Timer::run_one_task (timer.cpp lines 102-145): extract the top task,
recompute next_run_time (steady: previous deadline + interval; otherwise
now + interval — the worker fires once sleep_time ≤ 0 and the sequential
model takes now to be the earliest such instant, the task deadline),
reduce_times, run the callback (recorded by id), and re-queue the task
iff it is still valid. -/
def run_one_task (steady : Bool) (l : List TTask) : (List Nat × List TTask) :=
  match removeMin l with
  | none => ([], l)
  | some (t, rest) =>
    let now := t.next_run_time
    let t2 := if steady then { t with next_run_time := t.next_run_time + t.interval }
      else { t with next_run_time := now + t.interval }
    let t3 := t2.reduce_times
    if t3.is_valid then ([t.id], rest ++ [t3]) else ([t.id], rest)

/-- Timer::worker (timer.cpp lines 77-100), fuel-bounded sequential runs:
an empty heap ends the run (the thread would block on the condition
variable); an invalid task at the vector back is removed through
pop_heap/pop_back (dead in runs without cancellation, where every queued
task is valid); otherwise the sleep only delays the top task's deadline,
after which run_one_task executes. -/
def workerRun (steady : Bool) : Nat → List TTask → (List Nat × List TTask)
  | 0, l => ([], l)
  | f + 1, l =>
    if l = [] then ([], l)
    else if (l.getLastD ⟨0, 0, 0, 0⟩).is_valid = false then
      match removeMin l with
      | none => ([], l)
      | some (_, rest) => workerRun steady f rest
    else
      let p := run_one_task steady l
      let q := workerRun steady f p.2
      (p.1 ++ q.1, q.2)

/-- Total remaining scheduled runs of id i in the heap. -/
def tcount (l : List TTask) (i : Nat) : Int :=
  ((l.filter (fun t => t.id == i)).map TTask.times).sum

lemma removeMin_none (l : List TTask) : removeMin l = none ↔ l = [] := by
  cases l with
  | nil => simp [removeMin]
  | cons t rest =>
    simp only [removeMin]
    constructor
    · intro h
      cases hr : removeMin rest with
      | none => rw [hr] at h; simp at h
      | some p =>
        rw [hr] at h
        obtain ⟨m, rest2⟩ := p
        by_cases hc : t.next_run_time ≤ m.next_run_time <;> simp [hc] at h
    · intro h
      simp at h

lemma removeMin_perm : ∀ (l : List TTask) (t : TTask) (rest : List TTask),
    removeMin l = some (t, rest) → l.Perm (t :: rest) := by
  intro l
  induction l with
  | nil => intro t rest h; simp [removeMin] at h
  | cons a l0 ih =>
    intro t rest h
    simp only [removeMin] at h
    cases hr : removeMin l0 with
    | none =>
      rw [hr] at h
      simp only [Option.some.injEq, Prod.mk.injEq] at h
      obtain ⟨rfl, rfl⟩ := h
      rw [(removeMin_none l0).mp hr]
    | some p =>
      obtain ⟨m, rest2⟩ := p
      rw [hr] at h
      have h2 : (if a.next_run_time ≤ m.next_run_time then some (a, l0)
          else some (m, a :: rest2)) = some (t, rest) := h
      by_cases hc : a.next_run_time ≤ m.next_run_time
      · rw [if_pos hc] at h2
        simp only [Option.some.injEq, Prod.mk.injEq] at h2
        obtain ⟨rfl, rfl⟩ := h2
        exact List.Perm.refl _
      · rw [if_neg hc] at h2
        simp only [Option.some.injEq, Prod.mk.injEq] at h2
        obtain ⟨rfl, rfl⟩ := h2
        exact ((ih m rest2 hr).cons a).trans (List.Perm.swap _ _ _)

lemma tcount_perm {l l2 : List TTask} (i : Nat) (hp : l.Perm l2) :
    tcount l i = tcount l2 i :=
  ((hp.filter _).map TTask.times).sum_eq

lemma tcount_cons (t : TTask) (rest : List TTask) (i : Nat) :
    tcount (t :: rest) i = (if t.id = i then t.times else 0) + tcount rest i := by
  unfold tcount
  by_cases hc : t.id = i <;> simp [List.filter_cons, hc]

lemma tcount_append (a b : List TTask) (i : Nat) :
    tcount (a ++ b) i = tcount a i + tcount b i := by
  unfold tcount
  simp

lemma getLastD_mem {α : Type} : ∀ (l : List α) (d : α), l ≠ [] → l.getLastD d ∈ l := by
  intro l
  induction l with
  | nil => intro d h; exact absurd rfl h
  | cons a t ih =>
    intro d h
    rw [List.getLastD_cons]
    by_cases ht : t = []
    · subst ht
      simp [List.getLastD]
    · exact List.mem_cons_of_mem _ (ih a ht)

lemma run_one_task_shape (steady : Bool) (l : List TTask) (t : TTask)
    (rest : List TTask) (hrm : removeMin l = some (t, rest)) :
    ∃ t3 : TTask, t3.id = t.id ∧
      t3.times = (if t.times > 0 then t.times - 1 else t.times) ∧
      run_one_task steady l =
        ([t.id], if t3.times ≠ 0 then rest ++ [t3] else rest) := by
  refine ⟨({ t with next_run_time := t.next_run_time + t.interval } : TTask).reduce_times,
    ?_, ?_, ?_⟩
  · by_cases hp : t.times > 0 <;> simp [TTask.reduce_times, hp]
  · by_cases hp : t.times > 0 <;> simp [TTask.reduce_times, hp]
  · rw [run_one_task, hrm]
    simp only [TTask.is_valid, ite_self]
    by_cases hc :
        ({ t with next_run_time := t.next_run_time + t.interval } : TTask).reduce_times.times
          = 0 <;>
      simp [hc]

lemma workerRun_count (steady : Bool) (i : Nat) : ∀ (f : Nat) (l : List TTask),
    (∀ t ∈ l, t.is_valid = true) →
    (∀ t ∈ l, t.id = i → 0 ≤ t.times) →
    (workerRun steady f l).2 = [] →
    ((workerRun steady f l).1.count i : Int) = tcount l i := by
  intro f
  induction f with
  | zero =>
    intro l hval hnn hrun
    simp only [workerRun] at hrun ⊢
    rw [hrun]
    simp [tcount]
  | succ f ih =>
    intro l hval hnn hrun
    rw [workerRun] at hrun ⊢
    by_cases hl : l = []
    · rw [if_pos hl] at hrun ⊢
      simp [hl, tcount]
    · rw [if_neg hl] at hrun ⊢
      have hlast : (l.getLastD ⟨0, 0, 0, 0⟩).is_valid = true := by
        apply hval
        exact getLastD_mem l _ hl
      rw [if_neg (by rw [hlast]; simp)] at hrun ⊢
      cases hrm : removeMin l with
      | none => exact absurd ((removeMin_none l).mp hrm) hl
      | some p =>
        obtain ⟨t, rest⟩ := p
        have hperm := removeMin_perm l t rest hrm
        have htmem : t ∈ l := hperm.mem_iff.mpr (List.mem_cons_self _ _)
        have htval : t.is_valid = true := hval t htmem
        have htne : t.times ≠ 0 := by
          simpa [TTask.is_valid] using htval
        have hrestval : ∀ u ∈ rest, u.is_valid = true :=
          fun u hu => hval u (hperm.mem_iff.mpr (List.mem_cons_of_mem _ hu))
        have hrestnn : ∀ u ∈ rest, u.id = i → 0 ≤ u.times :=
          fun u hu => hnn u (hperm.mem_iff.mpr (List.mem_cons_of_mem _ hu))
        obtain ⟨t3, h3id, h3times, heq⟩ := run_one_task_shape steady l t rest hrm
        have hrun2 : (workerRun steady f (run_one_task steady l).2).2 = [] := hrun
        have htc : tcount l i = (if t.id = i then t.times else 0) + tcount rest i :=
          (tcount_perm i hperm).trans (tcount_cons t rest i)
        have hsing : [t.id].count i = if t.id = i then 1 else 0 := by
          by_cases hid : t.id = i <;> simp [List.count_cons, hid]
        have htpos : t.id = i → 0 < t.times := by
          intro hid
          rcases lt_or_eq_of_le (hnn t htmem hid) with h2 | h2
          · exact h2
          · exact absurd h2.symm htne
        by_cases h30 : t3.times = 0
        · rw [if_neg (by simp [h30])] at heq
          rw [heq] at hrun2
          have hrun3 : (workerRun steady f rest).2 = [] := hrun2
          have ihr := ih rest hrestval hrestnn hrun3
          show ((((run_one_task steady l).1 ++
            (workerRun steady f (run_one_task steady l).2).1)).count i : Int) = tcount l i
          rw [heq]
          show ((([t.id] ++ (workerRun steady f rest).1)).count i : Int) = tcount l i
          rw [List.count_append]
          push_cast
          rw [hsing, ihr, htc]
          by_cases hid : t.id = i
          · have h1 : t.times = 1 := by
              have hp := htpos hid
              rw [if_pos hp] at h3times
              omega
            rw [if_pos hid, if_pos hid, h1]
            push_cast
            omega
          · rw [if_neg hid, if_neg hid]
            push_cast
            omega
        · rw [if_pos h30] at heq
          rw [heq] at hrun2
          have hrun3 : (workerRun steady f (rest ++ [t3])).2 = [] := hrun2
          have hvalall : ∀ u ∈ rest ++ [t3], u.is_valid = true := by
            intro u hu
            rcases List.mem_append.mp hu with hu2 | hu2
            · exact hrestval u hu2
            · simp at hu2
              rw [hu2]
              simp [TTask.is_valid, h30]
          have hnnall : ∀ u ∈ rest ++ [t3], u.id = i → 0 ≤ u.times := by
            intro u hu hid
            rcases List.mem_append.mp hu with hu2 | hu2
            · exact hrestnn u hu2 hid
            · simp at hu2
              subst hu2
              rw [h3id] at hid
              have hp := htpos hid
              rw [if_pos hp] at h3times
              omega
          have ihr := ih (rest ++ [t3]) hvalall hnnall hrun3
          have htc3 : tcount (rest ++ [t3]) i =
              tcount rest i + (if t3.id = i then t3.times else 0) := by
            rw [tcount_append]
            have : tcount [t3] i = (if t3.id = i then t3.times else 0) := by
              rw [show ([t3] : List TTask) = t3 :: [] from rfl, tcount_cons]
              simp [tcount]
            rw [this]
          show ((((run_one_task steady l).1 ++
            (workerRun steady f (run_one_task steady l).2).1)).count i : Int) = tcount l i
          rw [heq]
          show ((([t.id] ++ (workerRun steady f (rest ++ [t3])).1)).count i : Int) = tcount l i
          rw [List.count_append]
          push_cast
          rw [hsing, ihr, htc3, htc, h3id]
          by_cases hid : t.id = i
          · have hp := htpos hid
            rw [if_pos hp] at h3times
            rw [if_pos hid, if_pos hid, if_pos hid, h3times]
            push_cast
            omega
          · rw [if_neg hid, if_neg hid, if_neg hid]
            push_cast
            omega

/-! ## Claim C8 -/

/-- C8: a timer task with finite times = k > 0 that is never cancelled has
its callback invoked exactly k times in every complete scheduler run
(sequential model of the worker loop; a complete run is one that empties
the heap, and absent cancellation every queued task is valid).  Moreover
each execution decrements times by one when it is positive, and
run_one_task re-queues the executed task into the heap iff its times is
still non-zero after the reduction. -/
theorem C8_timer_finite_times_runs_exactly_k (steady : Bool) (f : Nat)
    (tasks : List TTask) (i : Nat) (k : Int) (t0 : TTask)
    (hfilter : tasks.filter (fun t => t.id == i) = [t0])
    (ht0 : t0.times = k) (hk : 0 < k)
    (hval : ∀ t ∈ tasks, t.is_valid = true)
    (hrun : (workerRun steady f tasks).2 = []) :
    ((workerRun steady f tasks).1.count i : Int) = k ∧
    (∀ u : TTask, 0 < u.times → u.reduce_times.times = u.times - 1) ∧
    (∀ (steady2 : Bool) (l : List TTask) (u : TTask) (rest : List TTask),
      removeMin l = some (u, rest) →
      ∃ u3 : TTask, u3.id = u.id ∧ run_one_task steady2 l =
        ([u.id], if u3.times ≠ 0 then rest ++ [u3] else rest)) := by
  refine ⟨?_, ?_, ?_⟩
  · have hnn : ∀ t ∈ tasks, t.id = i → 0 ≤ t.times := by
      intro t ht hid
      have hmem : t ∈ tasks.filter (fun t => t.id == i) :=
        List.mem_filter.mpr ⟨ht, by simp [hid]⟩
      rw [hfilter] at hmem
      simp at hmem
      rw [hmem, ht0]
      omega
    have htc : tcount tasks i = k := by
      unfold tcount
      rw [hfilter]
      simp [ht0]
    rw [workerRun_count steady i f tasks hval hnn hrun, htc]
  · intro u hu
    simp [TTask.reduce_times, hu]
  · intro steady2 l u rest hrm
    obtain ⟨u3, h1, _, h3⟩ := run_one_task_shape steady2 l u rest hrm
    exact ⟨u3, h1, h3⟩

/-- Witness for C8: a single task with id 1 and times 2 runs exactly
twice in the complete run. -/
theorem C8_timer_finite_times_runs_exactly_k_witness :
    ((workerRun false 10 [⟨1, 2, 5, 0⟩]).1.count 1 : Int) = 2 :=
  (C8_timer_finite_times_runs_exactly_k false 10 [⟨1, 2, 5, 0⟩] 1 2 ⟨1, 2, 5, 0⟩
    (by decide) rfl (by decide) (by decide) (by decide)).1

/-! ## Server::listen (src/src/network/http/server.cpp lines 23-84) -/

/-- The sockaddr_in fields Server::listen touches. -/
structure SockAddrIn where
  sin_family : Nat
  sin_port : Nat
  sin_addr : Nat
deriving Repr, DecidableEq

/-- htons: 16-bit byte swap (host little-endian to network order). -/
def htons (n : Nat) : Nat := (n % 256) * 256 + (n / 256) % 256

/-- Results of the system and library calls Server::listen makes, supplied
as an environment: socket() return value, setsockopt success, the
inet_pton return value and parsed address for the given address string,
bind/listen success, and Epoller::add success. -/
structure ListenEnv where
  socket_fd : Int
  setsockopt_ok : Bool
  inet_pton_ret : Int
  inet_pton_addr : Nat
  bind_ok : Bool
  listen_ok : Bool
  epoll_add_ok : Bool
deriving Repr, DecidableEq

/-- The bind/listen/epoller-add/set_fd_nonblock tail of Server::listen
(lines 59-83); sa is the sockaddr handed to bind. -/
def listenTail (env : ListenEnv) (sa : SockAddrIn) : Bool × Option SockAddrIn :=
  if env.bind_ok = false then (false, some sa)
  else if env.listen_ok = false then (false, some sa)
  else if env.epoll_add_ok = false then (false, some sa)
  else (true, some sa)

/-- Server::listen (lines 23-84), transcribed statement by statement:
reject when running or port < 1024; socket(); setsockopt(SO_REUSEADDR);
then the local sockaddr_in serv_addr — it starts uninitialized (the
parameter u), sin_port is assigned htons(port), and only AFTERWARDS
memset zeroes the whole structure (line 50 follows line 49 in the
source), after which only sin_addr is filled in (INADDR_ANY = 0 for an
empty address, the inet_pton output otherwise); finally bind, listen
with backlog 6, Epoller::add and set_fd_nonblock.  The result carries
the returned bool and the sockaddr passed to bind (none when bind is
never reached).  A move-after-use defect of this revision (begin_ptr_
style) does not arise here; the port-zeroing memset is the observable
one. -/
def serverListen (running : Bool) (port : Nat) (address : String)
    (env : ListenEnv) (u : SockAddrIn) : Bool × Option SockAddrIn :=
  if running ∨ port < 1024 then (false, none)
  else if env.socket_fd < 0 then (false, none)
  else if env.setsockopt_ok = false then (false, none)
  else
    let a1 := { u with sin_port := htons port }
    let a2 : SockAddrIn := { a1 with sin_family := 0, sin_port := 0, sin_addr := 0 }
    if address = "" then listenTail env { a2 with sin_addr := 0 }
    else if env.inet_pton_ret ≤ 0 then (false, none)
    else listenTail env { a2 with sin_addr := env.inet_pton_addr }

/-! ## Claim C9 -/

/-- C9: the claim says a successful Server::listen binds the socket to the
given port.  The guard part holds: listen returns false when the server is
running or port < 1024.  But the memset on line 50 executes after the
sin_port assignment on line 49, so for every successful call the sockaddr
passed to bind carries sin_port = 0 (and sin_family = 0): the socket is
bound to an ephemeral kernel-chosen port, not the given one.  Evaluated
at port 8080 with every system call succeeding. -/
theorem C9_listen_memset_zeroes_port :
    serverListen false 8080 "" ⟨3, true, 1, 0, true, true, true⟩ ⟨7, 7, 7⟩ =
      (true, some ⟨0, 0, 0⟩) ∧
    htons 8080 ≠ 0 ∧
    serverListen true 8080 "" ⟨3, true, 1, 0, true, true, true⟩ ⟨7, 7, 7⟩ =
      (false, none) ∧
    serverListen false 1023 "" ⟨3, true, 1, 0, true, true, true⟩ ⟨7, 7, 7⟩ =
      (false, none) := by
  refine ⟨by decide, by decide, by decide, by decide⟩

/-! ## Flat Buffer (src/include/tinywebserver/utils/buffer.h) -/

/-- Buffer state with read_ptr_ and write_ptr_ as offsets from
begin_ptr_; data is the allocation contents. -/
structure FlatBuf where
  cap : Nat
  data : List Char
  rOff : Nat
  wOff : Nat
deriving Repr, DecidableEq

/-- Buffer(capacity) (buffer.h lines 19-24). -/
def FlatBuf.mk0 (cap : Nat) : FlatBuf :=
  { cap := cap, data := List.replicate cap (Char.ofNat 0), rOff := 0, wOff := 0 }

/-- Buffer::readable_size: write_ptr_ - read_ptr_. -/
def FlatBuf.readable_size (b : FlatBuf) : Nat := b.wOff - b.rOff

/-- Buffer::writeable_size: (begin_ptr_ + cap_) - write_ptr_. -/
def FlatBuf.writeable_size (b : FlatBuf) : Nat := b.cap - b.wOff

/-- Buffer::ensure_writeable (buffer.h lines 120-141).  The compact branch
copies the readable bytes to the front.  The reallocation branch
allocates 2*size bytes and copies the readable_size() bytes into it
unconditionally — the model records the copied bytes, so a copy larger
than the new allocation shows up as data longer than cap and wOff beyond
cap.  (The source also reads new_buf.get() for begin_ptr_ after new_buf
was moved into data_, leaving begin_ptr_ null; offsets cannot express
that second defect, the overflow below is the captured one.) -/
def FlatBuf.ensure_writeable (b : FlatBuf) (size : Nat) : FlatBuf :=
  if b.writeable_size ≥ size then b
  else
    let move_size := b.readable_size
    if b.rOff + b.writeable_size > size then
      { b with
        data := (b.data.drop b.rOff).take move_size ++ b.data.drop move_size,
        rOff := 0, wOff := move_size }
    else
      let new_size := size * 2
      { b with
        cap := new_size,
        data := (b.data.drop b.rOff).take move_size ++
          List.replicate (new_size - move_size) (Char.ofNat 0),
        rOff := 0, wOff := move_size }

/-- Buffer::read (buffer.h lines 147-154). -/
def FlatBuf.read (b : FlatBuf) (size : Nat) : List Char × FlatBuf :=
  let read_size := min size b.readable_size
  ((b.data.drop b.rOff).take read_size, { b with rOff := b.rOff + read_size })

/-- Buffer::write (buffer.h lines 159-166): ensure_writeable(size), copy,
advance write_ptr_. -/
def FlatBuf.write (b : FlatBuf) (str : List Char) : FlatBuf :=
  let b2 := b.ensure_writeable str.length
  { b2 with
    data := b2.data.take b2.wOff ++ str ++ b2.data.drop (b2.wOff + str.length),
    wOff := b2.wOff + str.length }

/-! ## Claim C10 -/

/-- The Buffer state obtained from Buffer(100) after writing 95 bytes and
reading 5 of them, the input to the failing ensure_writeable call. -/
def c10buf : FlatBuf := (((FlatBuf.mk0 100).write (List.replicate 95 'b')).read 5).2

/-- C10: the claim says ensure_writeable(n) guarantees
writeable_size() ≥ n while preserving the readable bytes and the pointer
invariant read_ptr_ ≤ write_ptr_ ≤ begin_ptr_ + cap in both branches.
The reallocation branch refutes it: it allocates only 2*n bytes but
copies all readable bytes, so when readable_size() > 2*n the copy
overruns the allocation and the write offset lands past the capacity.
The failing state is reached through the public API: Buffer(100), write
95 bytes, read 5, then ensure_writeable(10) — the branch test
(read_ptr_ - begin_ptr_) + writeable_size() > size is 10 > 10 = false,
so the code reallocates to 20 bytes and copies 90. -/
theorem C10_ensure_writeable_realloc_overflow :
    c10buf.rOff = 5 ∧ c10buf.wOff = 95 ∧ c10buf.cap = 100 ∧
    (c10buf.ensure_writeable 10).cap = 20 ∧
    (c10buf.ensure_writeable 10).wOff = 90 ∧
    ¬((c10buf.ensure_writeable 10).wOff ≤ (c10buf.ensure_writeable 10).cap) ∧
    (c10buf.ensure_writeable 10).writeable_size < 10 := by
  refine ⟨by decide, by decide, by decide, by decide, by decide, by decide, by decide⟩

end Tws
